import Mathlib

/-!
Verification development for the `userScripts` cache mover
(`src/mover/cache_mover.py` and `src/mover/modules/`).

The development shallowly embeds the parts of the program the claims are
about:

* a POSIX path model (absolute paths as component lists) for the
  `os.path` functions used by `modules/rewriter.py` and
  `modules/config.py` (`relpath`, `normpath`, `join`, `commonpath`);
* the demotion/promotion sort key and priority-queue entry comparison of
  `MovingMapping.get_sort_key` together with Python's tuple/dict/str
  comparison semantics (`asyncio.PriorityQueue` uses `heapq`, which
  compares entries with `<`);
* the qBittorrent pause/resume bookkeeping of
  `modules/seeding/qbit.py`;
* the hardlink-preserving move executor `move_files` of
  `cache_mover.py` over an explicit file-system state (paths are
  abstract identifiers, inodes carry sizes).
-/

/-! ## Path model

An absolute, normalized POSIX path is represented by its list of
components (the string `/mnt/cache/data` is `["mnt", "cache", "data"]`).
The Python code calls `os.path.abspath` on its inputs before using them,
so the claims below quantify over normalized absolute paths, which this
representation captures exactly (components are nonempty and are not
`"."` or `".."` for normalized paths; the model functions are stated on
arbitrary component lists and the theorems add normality hypotheses
where the string/list correspondence needs them).
-/

/-- An absolute POSIX path as its list of components. -/
abbrev PPath := List String

/-- Length of the longest common component prefix of two component
lists.  This is `len(os.path.commonprefix([a, b]))` as used inside
`posixpath.relpath`, where `commonprefix` is applied to the two
component lists. -/
def commonLen : List String → List String → Nat
  | a :: as, b :: bs => if a = b then commonLen as bs + 1 else 0
  | _, _ => 0

/-- `posixpath.relpath(path, start)` on absolute component lists:
`i = len(commonprefix([start_list, path_list]))`;
`rel_list = [pardir] * (len(start_list) - i) + path_list[i:]`;
empty result becomes `"."`.  On POSIX this function raises only for an
empty path string, which cannot occur after `os.path.abspath`, so the
embedding is total. -/
def relpathComps (path start : PPath) : PPath :=
  let i := commonLen path start
  let rel := List.replicate (start.length - i) ".." ++ path.drop i
  if rel = [] then ["."] else rel

/-- `posixpath.normpath` on an absolute path's components: drop `"."`,
resolve `".."` against the accumulated prefix (at the root, `".."` is
dropped, as `normpath` does for absolute paths). -/
def normpathAbs (cs : PPath) : PPath :=
  cs.foldl
    (fun acc c =>
      if c = "." then acc
      else if c = ".." then acc.dropLast
      else acc ++ [c]) []

/-- `os.path.commonpath([p, root]) == root` for absolute component
lists: `root` is a component prefix of `p` (or equal to it). -/
def underRoot : PPath → PPath → Bool
  | [], _ => true
  | _ :: _, [] => false
  | a :: as, b :: bs => a == b && underRoot as bs

/-! ### RealRewriter (`modules/rewriter.py`, lines 23-51) -/

/-- The configured real rewriter.  `relPath` is the constructor-computed
`self.rel_path`. -/
structure RealRewriter where
  source : PPath
  destination : PPath
  fromP : PPath
  relPath : PPath

/-- `RealRewriter.__init__`: `rel_path = os.path.relpath(to, source)`;
a result of `"."` becomes the empty relative path; `lstrip(os.sep)` is
the identity on component lists (components carry no separators). -/
def mkRealRewriter (source destination fromP toP : PPath) : RealRewriter :=
  let r := relpathComps toP source
  ⟨source, destination, fromP, if r = ["."] then [] else r⟩

/-- `RealRewriter.rewrite(root, path)`:
`rel = os.path.relpath(path, self._from)` followed by
`os.path.normpath(os.path.join(root, self.rel_path, rel))`.
The `except ValueError: return path` branch is unreachable on POSIX for
absolute inputs, so the embedding is the `try` body. -/
def RealRewriter.rewrite (rw : RealRewriter) (root p : PPath) : PPath :=
  normpathAbs (root ++ rw.relPath ++ relpathComps p rw.fromP)

/-- `Rewriter.on_source` (`rewriter.py` line 17). -/
def RealRewriter.onSource (rw : RealRewriter) (p : PPath) : PPath :=
  rw.rewrite rw.source p

/-- `Rewriter.on_destination` (`rewriter.py` line 20). -/
def RealRewriter.onDestination (rw : RealRewriter) (p : PPath) : PPath :=
  rw.rewrite rw.destination p

/-- `RealRewriter.restore(path)`: for each root in
`(source, destination)`, if `commonpath([path, root]) == root` then
return `normpath(join(self._from, relpath(path, join(root, self.rel_path))))`;
otherwise return `path` unchanged. -/
def RealRewriter.restore (rw : RealRewriter) (p : PPath) : PPath :=
  if underRoot rw.source p then
    normpathAbs (rw.fromP ++ relpathComps p (rw.source ++ rw.relPath))
  else if underRoot rw.destination p then
    normpathAbs (rw.fromP ++ relpathComps p (rw.destination ++ rw.relPath))
  else p

/-! ### Mapping path translation (`modules/config.py`, lines 122-128) -/

/-- The `source`/`destination` roots of one `MovingMapping`. -/
structure MappingPaths where
  source : PPath
  destination : PPath

/-- `MovingMapping.get_src_file`:
`os.path.join(self.source, os.path.relpath(path, self.destination))`. -/
def MappingPaths.getSrcFile (m : MappingPaths) (path : PPath) : PPath :=
  m.source ++ relpathComps path m.destination

/-- `MovingMapping.get_dest_file`:
`os.path.join(self.destination, os.path.relpath(src_path, self.source))`. -/
def MappingPaths.getDestFile (m : MappingPaths) (srcPath : PPath) : PPath :=
  m.destination ++ relpathComps srcPath m.source

/-! ### Path lemmas -/

theorem commonLen_append_self (s : PPath) (r : PPath) :
    commonLen (s ++ r) s = s.length := by
  induction s with
  | nil => cases r <;> simp [commonLen]
  | cons a as ih => simp [commonLen, ih]

theorem relpathComps_append_self (s r : PPath) :
    relpathComps (s ++ r) s = if r = [] then ["."] else r := by
  unfold relpathComps
  rw [commonLen_append_self]
  simp

/-- Test fixture of `rewriter_test.py` (`TestRewriterOne`):
`RealRewriter(source="/mnt/cache", destination="/mnt/user0",
_from="/data", to="/mnt/cache/data")`. -/
def rwTestOne : RealRewriter :=
  mkRealRewriter ["mnt", "cache"] ["mnt", "user0"] ["data"]
    ["mnt", "cache", "data"]

/-- The unmatched input of `test_real_restore_non_matching`:
`/unmatched/path/movie.mkv`, which is not under `from = /data`. -/
def unmatchedPath : PPath := ["unmatched", "path", "movie.mkv"]

/-- C6, counterexample: at the concrete configuration of the repository
test suite, `rewrite` applied (through `on_source`) to the absolute path
`/unmatched/path/movie.mkv`, which is not under `from = /data`, returns
`/mnt/cache/unmatched/path/movie.mkv`, not the input unchanged: the
claim that the real rewriter returns such paths unchanged is false on
the code. -/
theorem rewrite_not_identity_outside_from :
    rwTestOne.onSource unmatchedPath ≠ unmatchedPath ∧
      rwTestOne.onSource unmatchedPath =
        ["mnt", "cache", "unmatched", "path", "movie.mkv"] := by
  constructor
  · decide
  · decide

/-- C6, amended: rewriting is total (never raises: on POSIX the only
exception source, `relpath` on an empty path, is excluded by `abspath`);
a path under `from` is transplanted to
`normpath(root / rel_path / relpath(p, from))`, and it is `restore`, not
`rewrite`, that returns a path unchanged when it lies under neither the
source root nor the destination root. -/
theorem rewrite_transplants_and_restore_identity (rw : RealRewriter)
    (root p rest : PPath) (hunder : p = rw.fromP ++ rest) :
    rw.rewrite root p =
      normpathAbs (root ++ rw.relPath ++ (if rest = [] then ["."] else rest)) ∧
    ∀ q : PPath, underRoot rw.source q = false →
      underRoot rw.destination q = false → rw.restore q = q := by
  constructor
  · subst hunder
    unfold RealRewriter.rewrite
    rw [relpathComps_append_self]
  · intro q h1 h2
    unfold RealRewriter.restore
    rw [h1, h2]
    simp

/-- C6 witness: the amended theorem at the test-suite configuration with
`p = /data/movies/movie.mkv` (under `from`) and
`q = /unmatched/path/movie.mkv` (under neither root). -/
theorem rewrite_transplants_and_restore_identity_witness :
    rwTestOne.rewrite ["mnt", "cache"] ["data", "movies", "movie.mkv"] =
      normpathAbs (["mnt", "cache"] ++ rwTestOne.relPath ++
        (if (["movies", "movie.mkv"] : PPath) = [] then ["."]
          else ["movies", "movie.mkv"])) ∧
    ∀ q : PPath, underRoot rwTestOne.source q = false →
      underRoot rwTestOne.destination q = false → rwTestOne.restore q = q :=
  rewrite_transplants_and_restore_identity rwTestOne ["mnt", "cache"]
    ["data", "movies", "movie.mkv"] ["movies", "movie.mkv"] (by decide)

/-- C9: the per-mapping path translations are mutually inverse on
normalized absolute paths strictly under their roots: for
`p = source ++ r` (a path strictly under the source root),
`get_src_file (get_dest_file p) = p`, and for `q = destination ++ r'`,
`get_dest_file (get_src_file q) = q`.  The normality hypotheses on the
relative parts record the conditions under which the component-list
model coincides with the string functions (which call `abspath`). -/
theorem path_translation_roundtrip (m : MappingPaths) (p q r r' : PPath)
    (hp : p = m.source ++ r) (hr : r ≠ [])
    (hrn : "." ∉ r ∧ ".." ∉ r ∧ "" ∉ r)
    (hq : q = m.destination ++ r') (hr' : r' ≠ [])
    (hrn' : "." ∉ r' ∧ ".." ∉ r' ∧ "" ∉ r') :
    m.getSrcFile (m.getDestFile p) = p ∧
      m.getDestFile (m.getSrcFile q) = q := by
  subst hp hq
  constructor
  · unfold MappingPaths.getDestFile MappingPaths.getSrcFile
    rw [relpathComps_append_self m.source r, if_neg hr,
      relpathComps_append_self m.destination r, if_neg hr]
  · unfold MappingPaths.getDestFile MappingPaths.getSrcFile
    rw [relpathComps_append_self m.destination r', if_neg hr',
      relpathComps_append_self m.source r', if_neg hr']

/-- C9 witness: the round trip at
`source = /mnt/fast`, `destination = /mnt/slow`,
`p = /mnt/fast/movies/a.mkv`, `q = /mnt/slow/tv/b.mkv`. -/
theorem path_translation_roundtrip_witness :
    (MappingPaths.mk ["mnt", "fast"] ["mnt", "slow"]).getSrcFile
        ((MappingPaths.mk ["mnt", "fast"] ["mnt", "slow"]).getDestFile
          ["mnt", "fast", "movies", "a.mkv"]) =
      ["mnt", "fast", "movies", "a.mkv"] ∧
    (MappingPaths.mk ["mnt", "fast"] ["mnt", "slow"]).getDestFile
        ((MappingPaths.mk ["mnt", "fast"] ["mnt", "slow"]).getSrcFile
          ["mnt", "slow", "tv", "b.mkv"]) =
      ["mnt", "slow", "tv", "b.mkv"] :=
  path_translation_roundtrip (MappingPaths.mk ["mnt", "fast"] ["mnt", "slow"])
    ["mnt", "fast", "movies", "a.mkv"] ["mnt", "slow", "tv", "b.mkv"]
    ["movies", "a.mkv"] ["tv", "b.mkv"] (by decide) (by decide)
    (by decide) (by decide) (by decide) (by decide)

/-! ## Sort key and priority-queue entry comparison

`MovingMapping.get_sort_key` (`modules/config.py`, lines 133-185)
aggregates per-client seeding signals and per-player media signals into
a Python tuple plus a metadata dict.  `move_to_destination` puts
`((tuple, metadata), src_file)` into an `asyncio.PriorityQueue`, whose
`heapq` backend orders entries with Python's `<`.

Numeric signals are embedded as `Int`: `torrent.eta or 0` and
`torrent.num_seeds` are integers in the qBittorrent API, and
`self.now - torrent.completion_on` enters the tuple (negated) and the
metadata only through its value and its floor-division by 86400, so an
integer timeline is faithful for the ordering and equality facts proved
here. -/

/-- One torrent's signals as produced by `Qbit.get_sort_key`
(`modules/seeding/qbit.py` line 91):
`(torrent.eta or 0, self.now - torrent.completion_on, torrent.num_seeds)`. -/
structure TorrentSig where
  eta : Int
  age : Int
  seeds : Int
deriving DecidableEq

/-- Python `max` over a nonempty collection (the code guards the empty
case with `if not res: continue`; the `[]` value is never used). -/
def pyMax : List Int → Int
  | [] => 0
  | x :: xs => xs.foldl max x

/-- Python `min` over a nonempty collection (same guard as `pyMax`). -/
def pyMin : List Int → Int
  | [] => 0
  | x :: xs => xs.foldl min x

/-- The accumulation loop of `get_sort_key` (`config.py` lines 146-156):
starting from `torrent_eta = 0`, `completion_age = 0`, `num_seeders = 0`,
each client's nonempty result set contributes
`max(max(eta), eta_acc)`, `min(min(age), age_acc)`,
`min(min(seeds), seeds_acc)`. -/
def aggSignals (qbitResults : List (List TorrentSig)) : Int × Int × Int :=
  qbitResults.foldl
    (fun acc res =>
      if res = [] then acc
      else
        (max (pyMax (res.map TorrentSig.eta)) acc.1,
          min (pyMin (res.map TorrentSig.age)) acc.2.1,
          min (pyMin (res.map TorrentSig.seeds)) acc.2.2))
    (0, 0, 0)

/-- The nine-component sort tuple built at `config.py` lines 174-185. -/
structure NormalKey where
  cw : Int
  watchedLeft : Int
  hasTorrent : Int
  eta : Int
  negAge : Int
  negSeeders : Int
  numResults : Int
  negSize : Int
  ctime : Int
deriving DecidableEq

/-- A `get_sort_key` tuple: either the fixed eight-component tuple
`(1, 0, 0, 0, 0, 0, 0, 0)` returned for ignored paths
(`config.py` line 136) or the nine-component tuple for candidates.
Python tuples of different lengths are never equal, which the two
constructors capture. -/
inductive PyTuple where
  | ignoredKey : PyTuple
  | normalKey : NormalKey → PyTuple
deriving DecidableEq

/-- The components of a tuple, for Python's lexicographic comparison. -/
def PyTuple.comps : PyTuple → List Int
  | ignoredKey => [1, 0, 0, 0, 0, 0, 0, 0]
  | normalKey k =>
      [k.cw, k.watchedLeft, k.hasTorrent, k.eta, k.negAge, k.negSeeders,
        k.numResults, k.negSize, k.ctime]

/-- Python `<` on tuples of numbers: lexicographic, a strict prefix is
smaller. -/
def intListLt : List Int → List Int → Bool
  | [], [] => false
  | [], _ :: _ => true
  | _ :: _, [] => false
  | a :: as, b :: bs => if a < b then true else if b < a then false else intListLt as bs

/-- `int(continue_watching)` (`config.py` line 176). -/
def boolToInt : Bool → Int
  | true => 1
  | false => 0

/-- Python `str` of a bool (`"True"` / `"False"`). -/
def pyStrBool : Bool → String
  | true => "True"
  | false => "False"

/-- `timedelta(seconds=s).days`: floor division by 86400. -/
def pyDays (s : Int) : Int := Int.fdiv s 86400

/-- Helper for `formatGib`: two-digit rendering of the fractional part. -/
def twoDigits (n : Nat) : String :=
  (if n < 10 then "0" else "") ++ toString n

/-- `size / 2**30` rounded to hundredths with round-half-even, the
rounding used by Python's `f"{gib:.2f}"`. -/
def gibHundredths (size : Nat) : Nat :=
  let n := size * 100
  let d := 1073741824
  let q := n / d
  let r := n % d
  if 2 * r > d then q + 1 else if 2 * r < d then q else q + q % 2

/-- `helpers.format_bytes_to_gib`: `f"{size / 1024**3:.2f} GiB"`. -/
def formatGib (size : Nat) : String :=
  let h := gibHundredths size
  toString (h / 100) ++ "." ++ twoDigits (h % 100) ++ " GiB"

/-- The metadata dict built at `config.py` lines 163-172.  Every value
is a function of the paired tuple's components (plus the run-global
`_now`): this is the fact behind `planner_comparisons_total`. -/
def mkMetadata (cw : Bool) (watchedLeft : Int) (numResults : Nat)
    (eta age seeds : Int) (size : Nat) (ctime now : Int) :
    List (String × String) :=
  [("continue_watching", pyStrBool cw),
    ("users_left_to_watch", toString watchedLeft),
    ("num_torrents", toString numResults),
    ("torrent_eta", toString eta),
    ("completion_age", toString (pyDays age) ++ "d"),
    ("num_seeders", toString seeds),
    ("size", formatGib size),
    ("age", toString (pyDays (now - ctime)) ++ "d")]

/-- The tuple half of `MovingMapping.get_sort_key`
(`config.py` lines 133-136 and 174-185).  Inputs: whether the path is
ignored, the gathered per-client torrent signal sets (`qbit_results`,
one entry per configured seeding client), the per-player
`(continue_watching, watched_left)` pairs, the file size and creation
time.  Note line 160: `has_torrent = 1 if qbit_results else 0` tests
the truthiness of the per-client result list, not torrent coverage. -/
def sortTuple (ignored : Bool) (qbitResults : List (List TorrentSig))
    (mediaResults : List (Bool × Int)) (size : Nat) (ctime : Int) :
    PyTuple :=
  match ignored with
  | true => PyTuple.ignoredKey
  | false =>
      PyTuple.normalKey
        ⟨boolToInt (mediaResults.any fun m => m.1),
          (mediaResults.map fun m => m.2).sum,
          if qbitResults = [] then 0 else 1,
          (aggSignals qbitResults).1,
          -(aggSignals qbitResults).2.1,
          -(aggSignals qbitResults).2.2,
          (qbitResults.length : Int), -(size : Int), ctime⟩

/-- The metadata half of `MovingMapping.get_sort_key`
(`config.py` lines 136 and 163-172): `{}` for ignored paths, otherwise
the dict of stringified signals. -/
def sortMeta (ignored : Bool) (qbitResults : List (List TorrentSig))
    (mediaResults : List (Bool × Int)) (size : Nat) (ctime now : Int) :
    List (String × String) :=
  match ignored with
  | true => []
  | false =>
      mkMetadata (mediaResults.any fun m => m.1)
        ((mediaResults.map fun m => m.2).sum) qbitResults.length
        (aggSignals qbitResults).1 (aggSignals qbitResults).2.1
        (aggSignals qbitResults).2.2 size ctime now

/-- `MovingMapping.get_sort_key`: the returned `(tuple, metadata)`
pair. -/
def getSortKey (ignored : Bool) (qbitResults : List (List TorrentSig))
    (mediaResults : List (Bool × Int)) (size : Nat) (ctime now : Int) :
    PyTuple × List (String × String) :=
  (sortTuple ignored qbitResults mediaResults size ctime,
    sortMeta ignored qbitResults mediaResults size ctime now)

/-- C3: the `has_torrent` tuple component diverges from the code's own
inline comment (`config.py` line 178: `has_torrent (0 if has torrents,
else 1)`) and from the spec.  With one configured seeding client whose
result set covers the file's inode with one torrent, the component is
`1` (the comment and the claim say `0`); with no configured clients it
is `0` (the claim says `1`).  The code tests the truthiness of the list
of per-client result sets, which only records whether any client is
configured. -/
theorem has_torrent_component_diverges :
    (getSortKey false [[⟨0, 0, 0⟩]] [] 5 0 0).1.comps.getD 2 0 = 1 ∧
      (getSortKey false [] [] 5 0 0).1.comps.getD 2 0 = 0 := by
  decide

/-- Python `<` on strings: lexicographic comparison of code points. -/
def charListLt : List Char → List Char → Bool
  | [], [] => false
  | [], _ :: _ => true
  | _ :: _, [] => false
  | a :: as, b :: bs =>
      if a.toNat < b.toNat then true
      else if b.toNat < a.toNat then false
      else charListLt as bs

/-- Python `<` on the two path strings of tied entries. -/
def pyStrLt (a b : String) : Bool := charListLt a.data b.data

/-- A priority-queue entry `((tuple, metadata), src_file)` as put by
`move_to_destination` (`cache_mover.py` line 94). -/
structure PQEntry where
  key : PyTuple × List (String × String)
  path : String

/-- Python's `<` on two priority-queue entries, as evaluated by `heapq`
inside `asyncio.PriorityQueue.put`: tuple comparison finds the first
unequal element and compares it with `<`.  If the keys are fully equal
the paths (strings) are compared; if the tuples are equal but the
metadata dicts differ, Python evaluates `dict < dict`, which raises
`TypeError` (modelled as `none`); if the tuples differ the
numeric lexicographic comparison decides. -/
def pyLtEntry (e1 e2 : PQEntry) : Option Bool :=
  if e1.key = e2.key then some (pyStrLt e1.path e2.path)
  else if e1.key.1 = e2.key.1 then none
  else some (intListLt e1.key.1.comps e2.key.1.comps)

theorem sortMeta_determined (i1 i2 : Bool)
    (q1 q2 : List (List TorrentSig)) (m1 m2 : List (Bool × Int))
    (s1 s2 : Nat) (c1 c2 now : Int)
    (h : sortTuple i1 q1 m1 s1 c1 = sortTuple i2 q2 m2 s2 c2) :
    sortMeta i1 q1 m1 s1 c1 now = sortMeta i2 q2 m2 s2 c2 now := by
  cases i1 <;> cases i2 <;>
    simp only [sortTuple, sortMeta] at h ⊢
  · injection h with h
    injection h with hcw hwl hht heta hage hseeds hlen hsize hctime
    have hcw' : (m1.any fun m => m.1) = (m2.any fun m => m.1) := by
      cases hb1 : m1.any fun m => m.1 <;> cases hb2 : m2.any fun m => m.1 <;>
        simp [hb1, hb2, boolToInt] at hcw ⊢
    have hlen' : q1.length = q2.length := by exact_mod_cast hlen
    have hage' : (aggSignals q1).2.1 = (aggSignals q2).2.1 := neg_inj.mp hage
    have hseeds' : (aggSignals q1).2.2 = (aggSignals q2).2.2 := neg_inj.mp hseeds
    have hsize' : s1 = s2 := by
      have h2 : (s1 : Int) = (s2 : Int) := neg_inj.mp hsize
      exact_mod_cast h2
    rw [hcw', hwl, hlen', heta, hage', hseeds', hsize', hctime]
  · exact PyTuple.noConfusion h
  · exact PyTuple.noConfusion h

/-- C10, amended: demotion-planning comparisons are total for every
pair of entries produced by `get_sort_key` in one run.  Equal sort
tuples force equal metadata dicts (each metadata field is a function of
a tuple component and the run-global `now`), so Python's tuple
comparison falls through to the distinct path strings instead of
ordering the dicts; no `TypeError` is raised, whether or not the
nine-component tuples are pairwise distinct. -/
theorem planner_comparisons_total (i1 i2 : Bool)
    (q1 q2 : List (List TorrentSig)) (m1 m2 : List (Bool × Int))
    (s1 s2 : Nat) (c1 c2 now : Int) (p1 p2 : String) :
    pyLtEntry ⟨getSortKey i1 q1 m1 s1 c1 now, p1⟩
        ⟨getSortKey i2 q2 m2 s2 c2 now, p2⟩ ≠ none := by
  unfold pyLtEntry
  split
  · simp
  · split
    · rename_i hkey htup
      simp only [getSortKey] at hkey htup
      exact absurd
        (Prod.ext htup (sortMeta_determined i1 i2 q1 q2 m1 m2 s1 s2
          c1 c2 now htup)) hkey
    · simp

/-- C10, counterexample: two distinct eligible files with identical
signals (no clients, no media, size 5, creation time 0) produce equal
nine-component sort tuples, yet inserting the second entry does not
raise `TypeError`: the metadata dicts are equal and the comparison
falls through to the path strings, returning an ordinary boolean. -/
theorem equal_keys_compare_ok :
    pyLtEntry ⟨getSortKey false [] [] 5 0 0, "a"⟩
        ⟨getSortKey false [] [] 5 0 0, "b"⟩ = some true := by
  decide

/-! ## qBittorrent pause/resume bookkeeping (`modules/seeding/qbit.py`)

Torrents are abstract identifiers (`Nat`); `cache` is the per-inode
torrent index built by `Qbit.scan`.  `paused_torrents` is the Python
list the instance appends to on `pause` and pops from on `resume`. -/

/-- `Qbit.pause(path)` (`qbit.py` lines 93-102) for the torrents
covering one inode: each covering torrent that is not already in
`self.paused_torrents` is paused and appended to the record
(`if torrent in self.paused_torrents: continue` /
`self.paused_torrents.append(torrent)`). -/
def pauseForInode (cache : List (Nat × List Nat)) (paused : List Nat)
    (ino : Nat) : List Nat :=
  ((cache.lookup ino).getD []).foldl
    (fun acc t => if t ∈ acc then acc else acc ++ [t]) paused

/-- `Qbit.resume` (`qbit.py` lines 104-108):
`while self.paused_torrents: torrent = self.paused_torrents.pop();
torrent.resume()`.  `pop()` removes the tail, so the emitted resume
sequence is the record reversed and the record ends empty.  The result
pairs the resume sequence with the final record. -/
def resumeAll (paused : List Nat) : List Nat × List Nat :=
  (paused.reverse, [])

/-- One mapping run as observed by a single `Qbit` instance: the run
body performs a sequence of `pause` calls (one inode each, starting from
the empty record) and either completes or raises.  `main`
(`cache_mover.py` lines 164-180) catches every exception at the mapping
boundary and runs `await mapping.aclose()` in a `finally:` block, which
awaits `Qbit.aclose` and hence `resume`; both exit paths therefore end
in `resumeAll` of the accumulated record. -/
def runMapping (cache : List (Nat × List Nat)) (inos : List Nat)
    (raisedEarly : Bool) : List Nat × List Nat :=
  match raisedEarly with
  | true => resumeAll (inos.foldl (pauseForInode cache) [])
  | false => resumeAll (inos.foldl (pauseForInode cache) [])

theorem dedupAppend_fold_mem (ts : List Nat) (acc : List Nat) (x : Nat) :
    x ∈ ts.foldl (fun acc t => if t ∈ acc then acc else acc ++ [t]) acc ↔
      x ∈ acc ∨ x ∈ ts := by
  induction ts generalizing acc with
  | nil => simp
  | cons t ts ih =>
      simp only [List.foldl_cons]
      by_cases ht : t ∈ acc
      · rw [if_pos ht, ih]
        constructor
        · rintro (h | h)
          · exact Or.inl h
          · exact Or.inr (List.mem_cons_of_mem t h)
        · rintro (h | h)
          · exact Or.inl h
          · rcases List.mem_cons.mp h with h | h
            · exact Or.inl (h ▸ ht)
            · exact Or.inr h
      · rw [if_neg ht, ih]
        simp only [List.mem_append, List.mem_singleton, List.mem_cons]
        tauto

theorem dedupAppend_fold_nodup (ts : List Nat) (acc : List Nat)
    (h : acc.Nodup) :
    (ts.foldl (fun acc t => if t ∈ acc then acc else acc ++ [t]) acc).Nodup := by
  induction ts generalizing acc with
  | nil => exact h
  | cons t ts ih =>
      simp only [List.foldl_cons]
      by_cases ht : t ∈ acc
      · rw [if_pos ht]
        exact ih acc h
      · rw [if_neg ht]
        refine ih (acc ++ [t]) ?_
        simp [List.nodup_append, h, ht]

theorem pauseRecord_mem (cache : List (Nat × List Nat)) (inos : List Nat)
    (acc : List Nat) (x : Nat) :
    x ∈ inos.foldl (pauseForInode cache) acc ↔
      x ∈ acc ∨ ∃ i ∈ inos, x ∈ (cache.lookup i).getD [] := by
  induction inos generalizing acc with
  | nil => simp
  | cons i inos ih =>
      simp only [List.foldl_cons]
      rw [ih]
      unfold pauseForInode
      rw [dedupAppend_fold_mem]
      simp only [List.mem_cons]
      constructor
      · rintro ((h | h) | ⟨j, hj, hx⟩)
        · exact Or.inl h
        · exact Or.inr ⟨i, Or.inl rfl, h⟩
        · exact Or.inr ⟨j, Or.inr hj, hx⟩
      · rintro (h | ⟨j, hj | hj, hx⟩)
        · exact Or.inl (Or.inl h)
        · exact Or.inl (Or.inr (hj ▸ hx))
        · exact Or.inr ⟨j, hj, hx⟩

theorem pauseRecord_nodup (cache : List (Nat × List Nat)) (inos : List Nat)
    (acc : List Nat) (h : acc.Nodup) :
    (inos.foldl (pauseForInode cache) acc).Nodup := by
  induction inos generalizing acc with
  | nil => exact h
  | cons i inos ih =>
      simp only [List.foldl_cons]
      exact ih _ (dedupAppend_fold_nodup _ _ h)

/-- C7: on every exit path of a mapping run, normal or exceptional, the
`finally:` block reaches each seeding client's `resume`; it emits the
resume sequence in LIFO order (the reverse of the pause record), leaves
the paused-torrents record empty, and the record it drains contains
exactly the torrents this instance paused during the run — each torrent
covering a paused-for inode, recorded once. -/
theorem resume_all_lifo_and_exact (cache : List (Nat × List Nat))
    (inos : List Nat) (raisedEarly : Bool) :
    runMapping cache inos raisedEarly =
      ((inos.foldl (pauseForInode cache) []).reverse, []) ∧
    (inos.foldl (pauseForInode cache) []).Nodup ∧
    ∀ t, t ∈ inos.foldl (pauseForInode cache) [] ↔
      ∃ i ∈ inos, t ∈ (cache.lookup i).getD [] := by
  refine ⟨?_, pauseRecord_nodup cache inos [] List.nodup_nil, ?_⟩
  · cases raisedEarly <;> rfl
  · intro t
    rw [pauseRecord_mem]
    simp

/-- C7 witness: a run over inodes 1 and 2 where inode 1 is covered by
torrents 10 and 11 and the run raises; resume emits `[11, 10]` (LIFO)
and the record ends empty. -/
theorem resume_all_lifo_and_exact_witness :
    runMapping [(1, [10, 11])] [1, 2] true = ([11, 10], []) ∧
      10 ∈ [1, 2].foldl (pauseForInode [(1, [10, 11])]) [] := by
  have h := resume_all_lifo_and_exact [(1, [10, 11])] [1, 2] true
  refine ⟨h.1.trans (by decide), ?_⟩
  rw [h.2.2 10]
  decide

/-! ## The move executor (`cache_mover.py`, lines 15-76)

`move_files` consumes an ordered file list, the inode-to-paths map
built by the scan, a `dest_func` path translation and a byte budget.
Paths and inodes are abstract identifiers (`Nat`); the demote phase
instantiates `dest_func` with `get_dest_file` (source-tier paths to
destination-tier paths).  `move_to_source` would instantiate it with
`get_src_file` on destination-tier paths, but in fact never reaches
`move_files`: see the promote-phase section further below.

The embedded file system tracks live paths with their inodes and each
inode's size.  `helpers.get_stat` serves `move_files` from the cache
populated during the scan; since tier roots are disjoint and no path is
visited twice, the cached values always coincide with the live state at
the point of use, so `stat` is modelled against the live file system.
The run is modelled with `dry_run = False` (mutations execute);
`delete_file` swallows exceptions, and deletion of an existing path
succeeds in the model. -/

/-- A `stat` result: inode and size. -/
structure FStat where
  ino : Nat
  size : Nat
deriving DecidableEq

/-- The live file system: path-to-inode bindings (first binding wins),
inode sizes, and the next fresh inode number. -/
structure FS where
  files : List (Nat × Nat)
  sizes : List (Nat × Nat)
  nextIno : Nat
deriving DecidableEq

/-- `os.path.exists` / path resolution: the inode a path resolves to. -/
def FS.lookup (fs : FS) (p : Nat) : Option Nat :=
  fs.files.lookup p

/-- The size of an inode (`st_size`). -/
def FS.isize (fs : FS) (i : Nat) : Nat :=
  (fs.sizes.lookup i).getD 0

/-- `helpers.get_stat`: inode and size of an existing path. -/
def FS.stat (fs : FS) (p : Nat) : Option FStat :=
  (fs.lookup p).map fun i => ⟨i, fs.isize i⟩

/-- `os.remove(path)`: drop every binding of `p`. -/
def FS.remove (fs : FS) (p : Nat) : FS :=
  { fs with files := fs.files.filter fun e => e.1 != p }

/-- `os.link(target, dst)`: `dst` becomes a new name of `target`'s
inode (in `move_files` the call site guarantees `dst` is absent). -/
def FS.link (fs : FS) (target dst : Nat) : FS :=
  match fs.lookup target with
  | none => fs
  | some i => { fs with files := (dst, i) :: fs.files }

/-- `shutil.copy2(src, dst)` as used by
`helpers.copy_file_with_metadata`: an absent `dst` becomes a fresh
inode carrying `src`'s size; an existing `dst` is overwritten in place
(its inode keeps its identity, its size becomes `src`'s). -/
def FS.copy (fs : FS) (src dst : Nat) : FS :=
  match fs.lookup src with
  | none => fs
  | some si =>
      match fs.lookup dst with
      | some dj => { fs with sizes := (dj, fs.isize si) :: fs.sizes }
      | none =>
          { files := (dst, fs.nextIno) :: fs.files,
            sizes := (fs.nextIno, fs.isize si) :: fs.sizes,
            nextIno := fs.nextIno + 1 }

/-- `helpers.is_same_file` (`helpers.py` lines 53-59): `False` if the
destination does not exist, else size equality. -/
def isSameFile (fs : FS) (src dst : Nat) : Bool :=
  match fs.lookup dst with
  | none => false
  | some dj =>
      match fs.lookup src with
      | none => false
      | some si => fs.isize si == fs.isize dj

/-- The per-mapping context `move_files` runs in: `is_ignored`,
`is_active`, `dest_func` and the scanned inode-to-paths map
(`inodes_map`; a Python set of paths is carried as a list in some
iteration order). -/
structure Ctx where
  isIgnored : Nat → Bool
  isActive : Nat → Bool
  destFunc : Nat → Nat
  inodes : List (Nat × List Nat)

/-- `inodes.get(stat.st_ino, set())` (`cache_mover.py` line 52). -/
def Ctx.group (ctx : Ctx) (i : Nat) : List Nat :=
  (ctx.inodes.lookup i).getD []

/-- Every path recorded in the inode map. -/
def Ctx.allMembers (ctx : Ctx) : List Nat :=
  (ctx.inodes.map fun e => e.2).flatten

/-- The executor state: the file system, the `processed` set, the
`total` accumulator and the `remaining` budget of `move_files`, plus
event logs used to state the claims: one `(leader, inode, size)` entry
per processed group, the sizes of deleted pre-existing orphan
destination copies, every path passed to `mapping.pause`, every
`delete_file` target, and every leader that reached the copy step. -/
structure MvState where
  fs : FS
  processed : List Nat
  total : Nat
  remaining : Int
  movedGroups : List (Nat × Nat × Nat)
  orphanSizes : List Nat
  pausedFor : List Nat
  deleted : List Nat
  selected : List Nat
deriving DecidableEq

/-- The sibling loop body (`cache_mover.py` lines 52-70): skip already
processed paths; otherwise pause, then either skip the link when the
destination already has the same size, or delete a differing
pre-existing destination copy (crediting its size to `total`) and
hardlink the leader's destination file; finally mark the sibling
processed and delete it from the move source. -/
def processSibling (ctx : Ctx) (leaderDest : Nat) (st : MvState)
    (s : Nat) : MvState :=
  if s ∈ st.processed then st
  else
    let sDest := ctx.destFunc s
    let st1 := { st with pausedFor := st.pausedFor ++ [s] }
    let st2 :=
      if isSameFile st1.fs s sDest then st1
      else
        let st3 :=
          match st1.fs.lookup sDest with
          | some dj =>
              { st1 with
                fs := st1.fs.remove sDest,
                total := st1.total + st1.fs.isize dj,
                orphanSizes := st1.orphanSizes ++ [st1.fs.isize dj],
                deleted := st1.deleted ++ [sDest] }
          | none => st1
        { st3 with fs := st3.fs.link leaderDest sDest }
    { st2 with
      processed := s :: st2.processed,
      fs := st2.fs.remove s,
      deleted := st2.deleted ++ [s] }

/-- One leader iteration of `move_files` after the four guards
(`cache_mover.py` lines 37-74): stat the leader, pause, copy to the
destination unless a same-size copy already exists, mark processed,
run the sibling loop over the leader's inode group, then delete the
leader, credit its size to `total` and decrement the budget.
`get_stat` cannot fail here (every candidate was statted during the
scan); the unreachable `none` branch leaves the state unchanged. -/
def processGroup (ctx : Ctx) (st : MvState) (l : Nat) : MvState :=
  match st.fs.stat l with
  | none => st
  | some stt =>
      let st1 := { st with pausedFor := st.pausedFor ++ [l] }
      let lDest := ctx.destFunc l
      let st2 :=
        if isSameFile st1.fs l lDest then st1
        else { st1 with fs := st1.fs.copy l lDest }
      let st3 :=
        { st2 with
          processed := l :: st2.processed,
          selected := st2.selected ++ [l] }
      let st4 := (ctx.group stt.ino).foldl (processSibling ctx lDest) st3
      { st4 with
        fs := st4.fs.remove l,
        deleted := st4.deleted ++ [l],
        total := st4.total + stt.size,
        movedGroups := st4.movedGroups ++ [(l, stt.ino, stt.size)],
        remaining := st4.remaining - (stt.size : Int) }

/-- `move_files` (`cache_mover.py` lines 15-76): iterate the ordered
file list; skip processed and ignored paths; stop (`break`) once the
remaining budget is non-positive; skip actively played files; process
each surviving leader's inode group. -/
def moveFiles (ctx : Ctx) : MvState → List Nat → MvState
  | st, [] => st
  | st, f :: rest =>
      if f ∈ st.processed then moveFiles ctx st rest
      else if ctx.isIgnored f then moveFiles ctx st rest
      else if st.remaining ≤ 0 then st
      else if ctx.isActive f then moveFiles ctx st rest
      else moveFiles ctx (processGroup ctx st f) rest

/-- The executor state at the start of a phase: `total = 0`,
`processed = set()`, full budget, empty logs. -/
def initState (fs : FS) (budget : Int) : MvState :=
  ⟨fs, [], 0, budget, [], [], [], [], []⟩

/-! ### File-system lemmas -/

theorem lookup_cons_ne (l : List (Nat × Nat)) (d i q : Nat) (h : q ≠ d) :
    ((d, i) :: l).lookup q = l.lookup q := by
  have hdq : (q == d) = false := by simp [h]
  simp [List.lookup, hdq]

theorem lookup_cons_self (l : List (Nat × Nat)) (d i : Nat) :
    ((d, i) :: l).lookup d = some i := by
  simp [List.lookup]

theorem lookup_filter_ne (l : List (Nat × Nat)) (p q : Nat) (h : q ≠ p) :
    (l.filter fun e => e.1 != p).lookup q = l.lookup q := by
  induction l with
  | nil => rfl
  | cons e es ih =>
      rcases e with ⟨k, v⟩
      by_cases hk : k = p
      · subst hk
        have hq : (q == k) = false := by simp [h]
        simp [List.filter_cons, List.lookup, hq, ih]
      · by_cases hkq : k = q
        · subst hkq
          simp [List.filter_cons, List.lookup, hk, ih]
        · have hq : (q == k) = false := by simp [Ne.symm hkq]
          simp [List.filter_cons, List.lookup, hk, hq, ih]

theorem lookup_filter_self (l : List (Nat × Nat)) (p : Nat) :
    (l.filter fun e => e.1 != p).lookup p = none := by
  induction l with
  | nil => rfl
  | cons e es ih =>
      rcases e with ⟨k, v⟩
      by_cases hk : k = p
      · subst hk
        simp [List.filter_cons, ih]
      · have hq : (p == k) = false := by simp [Ne.symm hk]
        simp [List.filter_cons, List.lookup, hk, hq, ih]

theorem FS.lookup_remove_ne (fs : FS) (p q : Nat) (h : q ≠ p) :
    (fs.remove p).lookup q = fs.lookup q :=
  lookup_filter_ne fs.files p q h

theorem FS.lookup_remove_self (fs : FS) (p : Nat) :
    (fs.remove p).lookup p = none :=
  lookup_filter_self fs.files p

theorem FS.lookup_link_ne (fs : FS) (t d q : Nat) (h : q ≠ d) :
    (fs.link t d).lookup q = fs.lookup q := by
  unfold FS.link
  cases ht : fs.lookup t with
  | none => rfl
  | some i => exact lookup_cons_ne fs.files d i q h

theorem FS.lookup_link_self (fs : FS) (t d : Nat) (i : Nat)
    (h : fs.lookup t = some i) :
    (fs.link t d).lookup d = some i := by
  unfold FS.link
  rw [h]
  exact lookup_cons_self fs.files d i

theorem FS.lookup_copy_ne (fs : FS) (s d q : Nat) (h : q ≠ d) :
    (fs.copy s d).lookup q = fs.lookup q := by
  unfold FS.copy
  cases hs : fs.lookup s with
  | none => rfl
  | some si =>
      cases hd : fs.lookup d with
      | none => exact lookup_cons_ne fs.files d fs.nextIno q h
      | some dj => rfl

theorem FS.sizes_remove (fs : FS) (p : Nat) :
    (fs.remove p).sizes = fs.sizes := rfl

theorem FS.sizes_link (fs : FS) (t d : Nat) :
    (fs.link t d).sizes = fs.sizes := by
  unfold FS.link
  cases ht : fs.lookup t <;> rfl

theorem FS.isize_eq_of_sizes (fs fs' : FS) (h : fs'.sizes = fs.sizes)
    (i : Nat) : fs'.isize i = fs.isize i := by
  unfold FS.isize
  rw [h]

theorem FS.copy_absent (fs : FS) (s d si : Nat)
    (hs : fs.lookup s = some si) (hd : fs.lookup d = none) :
    fs.copy s d =
      ⟨(d, fs.nextIno) :: fs.files, (fs.nextIno, fs.isize si) :: fs.sizes,
        fs.nextIno + 1⟩ := by
  unfold FS.copy
  rw [hs, hd]

theorem isSameFile_congr (fs fs' : FS) (a b : Nat)
    (ha : fs'.lookup a = fs.lookup a) (hb : fs'.lookup b = fs.lookup b)
    (hsz : ∀ k, fs.lookup a = some k ∨ fs.lookup b = some k →
      fs'.isize k = fs.isize k) :
    isSameFile fs' a b = isSameFile fs a b := by
  unfold isSameFile
  rw [ha, hb]
  cases hlb : fs.lookup b with
  | none => rfl
  | some dj =>
      cases hla : fs.lookup a with
      | none => rfl
      | some si =>
          show (fs'.isize si == fs'.isize dj) = (fs.isize si == fs.isize dj)
          rw [hsz si (Or.inl hla), hsz dj (Or.inr hlb)]

/-! ### `processSibling` structural lemmas -/

theorem ps_skip (ctx : Ctx) (ld : Nat) (st : MvState) (s : Nat)
    (h : s ∈ st.processed) : processSibling ctx ld st s = st := by
  unfold processSibling
  rw [if_pos h]

theorem ps_movedGroups (ctx : Ctx) (ld : Nat) (st : MvState) (s : Nat) :
    (processSibling ctx ld st s).movedGroups = st.movedGroups := by
  unfold processSibling
  split
  · rfl
  · dsimp only
    split
    · rfl
    · split <;> rfl

theorem ps_remaining (ctx : Ctx) (ld : Nat) (st : MvState) (s : Nat) :
    (processSibling ctx ld st s).remaining = st.remaining := by
  unfold processSibling
  split
  · rfl
  · dsimp only
    split
    · rfl
    · split <;> rfl

theorem ps_selected (ctx : Ctx) (ld : Nat) (st : MvState) (s : Nat) :
    (processSibling ctx ld st s).selected = st.selected := by
  unfold processSibling
  split
  · rfl
  · dsimp only
    split
    · rfl
    · split <;> rfl

theorem ps_sizes (ctx : Ctx) (ld : Nat) (st : MvState) (s : Nat) :
    (processSibling ctx ld st s).fs.sizes = st.fs.sizes := by
  unfold processSibling
  split
  · rfl
  · dsimp only
    split
    · rfl
    · split <;> simp [FS.sizes_remove, FS.sizes_link]

theorem ps_processed_not (ctx : Ctx) (ld : Nat) (st : MvState) (s : Nat)
    (h : s ∉ st.processed) :
    (processSibling ctx ld st s).processed = s :: st.processed := by
  unfold processSibling
  rw [if_neg h]
  dsimp only
  split
  · rfl
  · split <;> rfl

theorem ps_processed_mono (ctx : Ctx) (ld : Nat) (st : MvState) (s : Nat)
    (x : Nat) (h : x ∈ st.processed) :
    x ∈ (processSibling ctx ld st s).processed := by
  by_cases hs : s ∈ st.processed
  · rw [ps_skip ctx ld st s hs]
    exact h
  · rw [ps_processed_not ctx ld st s hs]
    exact List.mem_cons_of_mem s h

theorem ps_deleted_mono (ctx : Ctx) (ld : Nat) (st : MvState) (s : Nat)
    (x : Nat) (h : x ∈ st.deleted) :
    x ∈ (processSibling ctx ld st s).deleted := by
  unfold processSibling
  split
  · exact h
  · dsimp only
    split
    · simp [h]
    · split <;> simp [h]

theorem ps_deleted_self (ctx : Ctx) (ld : Nat) (st : MvState) (s : Nat)
    (h : s ∉ st.processed) :
    s ∈ (processSibling ctx ld st s).deleted := by
  unfold processSibling
  rw [if_neg h]
  dsimp only
  split
  · simp
  · split <;> simp

/-- The `total` accumulator of `move_files` always equals the sum of
the per-group sizes plus the sum of the deleted orphan-copy sizes. -/
def acctOk (st : MvState) : Prop :=
  st.total = (st.movedGroups.map fun e => e.2.2).sum + st.orphanSizes.sum

theorem ps_acct (ctx : Ctx) (ld : Nat) (st : MvState) (s : Nat)
    (h : acctOk st) : acctOk (processSibling ctx ld st s) := by
  unfold processSibling
  split
  · exact h
  · dsimp only
    split
    · exact h
    · split
      · unfold acctOk at h ⊢
        simp only [List.sum_append, List.sum_cons, List.sum_nil]
        omega
      · exact h

theorem ps_procDelExcept (ctx : Ctx) (ld : Nat) (st : MvState) (s : Nat)
    (l : Nat) (h : ∀ p ∈ st.processed, p ∈ st.deleted ∨ p = l) :
    ∀ p ∈ (processSibling ctx ld st s).processed,
      p ∈ (processSibling ctx ld st s).deleted ∨ p = l := by
  by_cases hs : s ∈ st.processed
  · rw [ps_skip ctx ld st s hs]
    exact h
  · rw [ps_processed_not ctx ld st s hs]
    intro p hp
    rcases List.mem_cons.mp hp with hp | hp
    · exact Or.inl (hp ▸ ps_deleted_self ctx ld st s hs)
    · rcases h p hp with hd | hd
      · exact Or.inl (ps_deleted_mono ctx ld st s p hd)
      · exact Or.inr hd

theorem ps_fs_lookup_ne (ctx : Ctx) (ld : Nat) (st : MvState) (s : Nat)
    (q : Nat) (hq1 : q ≠ s) (hq2 : q ≠ ctx.destFunc s) :
    (processSibling ctx ld st s).fs.lookup q = st.fs.lookup q := by
  unfold processSibling
  split
  · rfl
  · dsimp only
    split
    · exact FS.lookup_remove_ne st.fs s q hq1
    · split
      · rw [FS.lookup_remove_ne _ s q hq1, FS.lookup_link_ne _ ld _ q hq2,
          FS.lookup_remove_ne _ _ q hq2]
      · rw [FS.lookup_remove_ne _ s q hq1, FS.lookup_link_ne _ ld _ q hq2]

theorem ps_link (ctx : Ctx) (ld : Nat) (st : MvState) (s : Nat) (j : Nat)
    (hmem : s ∉ st.processed)
    (hsame : isSameFile st.fs s (ctx.destFunc s) = false)
    (hld : st.fs.lookup ld = some j)
    (hldd : ld ≠ ctx.destFunc s) (hds : ctx.destFunc s ≠ s) :
    (processSibling ctx ld st s).fs.lookup (ctx.destFunc s) = some j ∧
      (processSibling ctx ld st s).fs.lookup s = none := by
  unfold processSibling
  rw [if_neg hmem]
  dsimp only
  have hsame' : ¬ (isSameFile st.fs s (ctx.destFunc s) = true) := by
    simp [hsame]
  rw [if_neg hsame']
  split
  · constructor
    · rw [FS.lookup_remove_ne _ s _ hds]
      exact FS.lookup_link_self _ ld _ j
        (by rw [FS.lookup_remove_ne _ _ ld hldd]
            exact hld)
    · exact FS.lookup_remove_self _ s
  · constructor
    · rw [FS.lookup_remove_ne _ s _ hds]
      exact FS.lookup_link_self _ ld _ j hld
    · exact FS.lookup_remove_self _ s

/-! ### Sibling-loop (`foldl`) lemmas -/

theorem fold_movedGroups (ctx : Ctx) (ld : Nat) (rest : List Nat) :
    ∀ st : MvState,
      (rest.foldl (processSibling ctx ld) st).movedGroups = st.movedGroups := by
  induction rest with
  | nil => intro st; rfl
  | cons s rest ih =>
      intro st
      rw [List.foldl_cons, ih, ps_movedGroups]

theorem fold_remaining (ctx : Ctx) (ld : Nat) (rest : List Nat) :
    ∀ st : MvState,
      (rest.foldl (processSibling ctx ld) st).remaining = st.remaining := by
  induction rest with
  | nil => intro st; rfl
  | cons s rest ih =>
      intro st
      rw [List.foldl_cons, ih, ps_remaining]

theorem fold_selected (ctx : Ctx) (ld : Nat) (rest : List Nat) :
    ∀ st : MvState,
      (rest.foldl (processSibling ctx ld) st).selected = st.selected := by
  induction rest with
  | nil => intro st; rfl
  | cons s rest ih =>
      intro st
      rw [List.foldl_cons, ih, ps_selected]

theorem fold_processed_mono (ctx : Ctx) (ld : Nat) (rest : List Nat) :
    ∀ (st : MvState) (x : Nat), x ∈ st.processed →
      x ∈ (rest.foldl (processSibling ctx ld) st).processed := by
  induction rest with
  | nil => intro st x h; exact h
  | cons s rest ih =>
      intro st x h
      rw [List.foldl_cons]
      exact ih _ x (ps_processed_mono ctx ld st s x h)

theorem fold_deleted_mono (ctx : Ctx) (ld : Nat) (rest : List Nat) :
    ∀ (st : MvState) (x : Nat), x ∈ st.deleted →
      x ∈ (rest.foldl (processSibling ctx ld) st).deleted := by
  induction rest with
  | nil => intro st x h; exact h
  | cons s rest ih =>
      intro st x h
      rw [List.foldl_cons]
      exact ih _ x (ps_deleted_mono ctx ld st s x h)

theorem fold_cover (ctx : Ctx) (ld : Nat) (rest : List Nat) :
    ∀ (st : MvState), ∀ m ∈ rest,
      m ∈ (rest.foldl (processSibling ctx ld) st).processed := by
  induction rest with
  | nil => intro st m hm; simp at hm
  | cons s rest ih =>
      intro st m hm
      rw [List.foldl_cons]
      rcases List.mem_cons.mp hm with hm | hm
      · subst hm
        refine fold_processed_mono ctx ld rest _ m ?_
        by_cases hs : m ∈ st.processed
        · rw [ps_skip ctx ld st m hs]; exact hs
        · rw [ps_processed_not ctx ld st m hs]
          exact List.mem_cons_self m _
      · exact ih _ m hm

theorem fold_acct (ctx : Ctx) (ld : Nat) (rest : List Nat) :
    ∀ st : MvState, acctOk st →
      acctOk (rest.foldl (processSibling ctx ld) st) := by
  induction rest with
  | nil => intro st h; exact h
  | cons s rest ih =>
      intro st h
      rw [List.foldl_cons]
      exact ih _ (ps_acct ctx ld st s h)

theorem fold_procDelExcept (ctx : Ctx) (ld : Nat) (rest : List Nat)
    (l : Nat) :
    ∀ st : MvState, (∀ p ∈ st.processed, p ∈ st.deleted ∨ p = l) →
      ∀ p ∈ (rest.foldl (processSibling ctx ld) st).processed,
        p ∈ (rest.foldl (processSibling ctx ld) st).deleted ∨ p = l := by
  induction rest with
  | nil => intro st h; exact h
  | cons s rest ih =>
      intro st h
      rw [List.foldl_cons]
      exact ih _ (ps_procDelExcept ctx ld st s l h)

theorem fold_lookup_frame (ctx : Ctx) (ld : Nat) (rest : List Nat) :
    ∀ (st : MvState) (q : Nat),
      (∀ s ∈ rest, s ∈ st.processed ∨ (q ≠ s ∧ q ≠ ctx.destFunc s)) →
      (rest.foldl (processSibling ctx ld) st).fs.lookup q = st.fs.lookup q := by
  induction rest with
  | nil => intro st q _; rfl
  | cons s rest ih =>
      intro st q h
      rw [List.foldl_cons]
      rcases h s (List.mem_cons_self s rest) with hs | ⟨hq1, hq2⟩
      · rw [ps_skip ctx ld st s hs]
        refine ih st q ?_
        intro x hx
        exact h x (List.mem_cons_of_mem s hx)
      · rw [ih _ q ?_, ps_fs_lookup_ne ctx ld st s q hq1 hq2]
        intro x hx
        rcases h x (List.mem_cons_of_mem s hx) with hx' | hx'
        · exact Or.inl (ps_processed_mono ctx ld st s x hx')
        · exact Or.inr hx'

theorem fold_sizes (ctx : Ctx) (ld : Nat) (rest : List Nat) :
    ∀ st : MvState,
      (rest.foldl (processSibling ctx ld) st).fs.sizes = st.fs.sizes := by
  induction rest with
  | nil => intro st; rfl
  | cons s rest ih =>
      intro st
      rw [List.foldl_cons, ih, ps_sizes]

/-- After the sibling loop runs over an inode group whose leader `l` is
already processed and whose destination file resolves to inode `j`,
every sibling that entered the loop unprocessed with no same-size
destination copy has been relinked to `j` and deleted, and the leader's
destination file still resolves to `j`. -/
theorem sibFold_hardlink (ctx : Ctx) (l : Nat) (j : Nat)
    (hinj : ∀ p q, ctx.destFunc p = ctx.destFunc q → p = q) :
    ∀ (rest : List Nat) (st : MvState),
      rest.Nodup →
      l ∈ st.processed →
      st.fs.lookup (ctx.destFunc l) = some j →
      (∀ (p : Nat), ∀ m ∈ rest, ctx.destFunc p ≠ m) →
      (∀ s ∈ rest, s ≠ l →
        s ∉ st.processed ∧ isSameFile st.fs s (ctx.destFunc s) = false) →
      (∀ s ∈ rest, s ≠ l →
        (rest.foldl (processSibling ctx (ctx.destFunc l)) st).fs.lookup
            (ctx.destFunc s) = some j ∧
        (rest.foldl (processSibling ctx (ctx.destFunc l)) st).fs.lookup
            s = none) ∧
      (rest.foldl (processSibling ctx (ctx.destFunc l)) st).fs.lookup
          (ctx.destFunc l) = some j := by
  intro rest
  induction rest with
  | nil =>
      intro st _ _ hj _ _
      exact ⟨by simp, hj⟩
  | cons s rest ih =>
      intro st hnd hl hj hsep hsibs
      have hnd' : rest.Nodup := (List.nodup_cons.mp hnd).2
      have hsnr : s ∉ rest := (List.nodup_cons.mp hnd).1
      rw [List.foldl_cons]
      by_cases hsl : s = l
      · subst hsl
        rw [ps_skip ctx (ctx.destFunc s) st s hl]
        have hres := ih st hnd' hl hj
          (fun p m hm => hsep p m (List.mem_cons_of_mem s hm))
          (fun x hx hxl => hsibs x (List.mem_cons_of_mem s hx) hxl)
        refine ⟨?_, hres.2⟩
        intro x hx hxl
        rcases List.mem_cons.mp hx with hx' | hx'
        · exact absurd hx' hxl
        · exact hres.1 x hx' hxl
      · have hmem : s ∉ st.processed := (hsibs s (List.mem_cons_self s rest) hsl).1
        have hsame : isSameFile st.fs s (ctx.destFunc s) = false :=
          (hsibs s (List.mem_cons_self s rest) hsl).2
        have hds : ctx.destFunc s ≠ s := hsep s s (List.mem_cons_self s rest)
        have hldd : ctx.destFunc l ≠ ctx.destFunc s := by
          intro h
          exact hsl (hinj l s h).symm
        have hlds : ctx.destFunc l ≠ s := hsep l s (List.mem_cons_self s rest)
        set st1 := processSibling ctx (ctx.destFunc l) st s with hst1
        have hlink := ps_link ctx (ctx.destFunc l) st s j hmem hsame hj hldd hds
        have hld1 : st1.fs.lookup (ctx.destFunc l) = some j := by
          rw [hst1, ps_fs_lookup_ne ctx (ctx.destFunc l) st s (ctx.destFunc l)
            hlds hldd]
          exact hj
        have hl1 : l ∈ st1.processed := ps_processed_mono ctx _ st s l hl
        have hsibs1 : ∀ x ∈ rest, x ≠ l →
            x ∉ st1.processed ∧ isSameFile st1.fs x (ctx.destFunc x) = false := by
          intro x hx hxl
          have hxs : x ≠ s := fun h => hsnr (h ▸ hx)
          have hx0 := hsibs x (List.mem_cons_of_mem s hx) hxl
          constructor
          · rw [hst1, ps_processed_not ctx _ st s hmem]
            intro hcon
            rcases List.mem_cons.mp hcon with h | h
            · exact hxs h
            · exact hx0.1 h
          · have hcongr : isSameFile st1.fs x (ctx.destFunc x) =
                isSameFile st.fs x (ctx.destFunc x) := by
              refine isSameFile_congr st.fs st1.fs x (ctx.destFunc x) ?_ ?_ ?_
              · exact ps_fs_lookup_ne ctx _ st s x hxs
                  (fun h => hsep s x (List.mem_cons_of_mem s hx) h.symm)
              · refine ps_fs_lookup_ne ctx _ st s (ctx.destFunc x) ?_ ?_
                · exact hsep x s (List.mem_cons_self s rest)
                · intro h
                  exact hxs (hinj x s h)
              · intro k _
                exact FS.isize_eq_of_sizes st.fs st1.fs
                  (by rw [hst1, ps_sizes]) k
            rw [hcongr]
            exact hx0.2
        have hres := ih st1 hnd' hl1 hld1
          (fun p m hm => hsep p m (List.mem_cons_of_mem s hm)) hsibs1
        refine ⟨?_, hres.2⟩
        intro x hx hxl
        rcases List.mem_cons.mp hx with hx' | hx'
        · subst hx'
          constructor
          · rw [fold_lookup_frame ctx (ctx.destFunc l) rest st1
              (ctx.destFunc x) ?_]
            · exact hlink.1
            · intro y hy
              refine Or.inr ⟨fun h => hsep x y (List.mem_cons_of_mem x hy) h, ?_⟩
              intro h
              have hxy : y = x := (hinj x y h).symm
              exact hsnr (hxy ▸ hy)
          · rw [fold_lookup_frame ctx (ctx.destFunc l) rest st1 x ?_]
            · exact hlink.2
            · intro y hy
              refine Or.inr ⟨fun h => hsnr (h ▸ hy), ?_⟩
              exact fun h => hsep y x (List.mem_cons_self x rest) h.symm
        · exact hres.1 x hx' hxl

/-! ### `processGroup` lemmas -/

theorem lookup_mem_assoc {β : Type} (l : List (Nat × β)) (a : Nat) (v : β)
    (h : l.lookup a = some v) : (a, v) ∈ l := by
  induction l with
  | nil => simp [List.lookup] at h
  | cons e es ih =>
      rcases e with ⟨k, w⟩
      by_cases hk : a = k
      · subst hk
        simp only [List.lookup, beq_self_eq_true] at h
        injection h with h
        rw [← h]
        exact List.mem_cons_self _ _
      · have hk' : (a == k) = false := by simp [hk]
        simp only [List.lookup, hk'] at h
        exact List.mem_cons_of_mem _ (ih h)

theorem group_sub_allMembers (ctx : Ctx) (i : Nat) :
    ∀ s ∈ ctx.group i, s ∈ ctx.allMembers := by
  intro s hs
  unfold Ctx.group at hs
  cases hg : ctx.inodes.lookup i with
  | none => rw [hg] at hs; simp at hs
  | some gl =>
      rw [hg] at hs
      simp only [Option.getD_some] at hs
      unfold Ctx.allMembers
      rw [List.mem_flatten]
      exact ⟨gl, List.mem_map_of_mem _ (lookup_mem_assoc ctx.inodes i gl hg), hs⟩

theorem pg_nostat (ctx : Ctx) (st : MvState) (l : Nat)
    (h : st.fs.stat l = none) : processGroup ctx st l = st := by
  unfold processGroup
  rw [h]

theorem pg_movedGroups (ctx : Ctx) (st : MvState) (l : Nat) (i sz : Nat)
    (h : st.fs.stat l = some ⟨i, sz⟩) :
    (processGroup ctx st l).movedGroups = st.movedGroups ++ [(l, i, sz)] := by
  unfold processGroup
  rw [h]
  dsimp only
  rw [fold_movedGroups]
  split <;> rfl

theorem pg_remaining (ctx : Ctx) (st : MvState) (l : Nat) (i sz : Nat)
    (h : st.fs.stat l = some ⟨i, sz⟩) :
    (processGroup ctx st l).remaining = st.remaining - (sz : Int) := by
  unfold processGroup
  rw [h]
  dsimp only
  rw [fold_remaining]
  split <;> rfl

theorem pg_selected (ctx : Ctx) (st : MvState) (l : Nat) (i sz : Nat)
    (h : st.fs.stat l = some ⟨i, sz⟩) :
    (processGroup ctx st l).selected = st.selected ++ [l] := by
  unfold processGroup
  rw [h]
  dsimp only
  rw [fold_selected]
  split <;> rfl

theorem pg_processed_mono (ctx : Ctx) (st : MvState) (l : Nat) (x : Nat)
    (h : x ∈ st.processed) : x ∈ (processGroup ctx st l).processed := by
  unfold processGroup
  cases hst : st.fs.stat l with
  | none => exact h
  | some stt =>
      dsimp only
      refine fold_processed_mono ctx _ _ _ x ?_
      split <;> exact List.mem_cons_of_mem l h

theorem pg_leader_processed (ctx : Ctx) (st : MvState) (l : Nat)
    (stt : FStat) (h : st.fs.stat l = some stt) :
    l ∈ (processGroup ctx st l).processed := by
  unfold processGroup
  rw [h]
  dsimp only
  refine fold_processed_mono ctx _ _ _ l ?_
  split <;> exact List.mem_cons_self l _

theorem pg_deleted_mono (ctx : Ctx) (st : MvState) (l : Nat) (x : Nat)
    (h : x ∈ st.deleted) : x ∈ (processGroup ctx st l).deleted := by
  unfold processGroup
  cases hst : st.fs.stat l with
  | none => exact h
  | some stt =>
      dsimp only
      rw [List.mem_append]
      refine Or.inl (fold_deleted_mono ctx _ _ _ x ?_)
      split <;> exact h

theorem pg_leader_deleted (ctx : Ctx) (st : MvState) (l : Nat)
    (stt : FStat) (h : st.fs.stat l = some stt) :
    l ∈ (processGroup ctx st l).deleted := by
  unfold processGroup
  rw [h]
  dsimp only
  simp

theorem pg_leader_lookup_none (ctx : Ctx) (st : MvState) (l : Nat)
    (stt : FStat) (h : st.fs.stat l = some stt) :
    (processGroup ctx st l).fs.lookup l = none := by
  unfold processGroup
  rw [h]
  dsimp only
  exact FS.lookup_remove_self _ l

theorem acct_append (st4 : MvState) (f : FS) (d : List Nat) (r : Int)
    (l i sz : Nat) (h : acctOk st4) :
    acctOk { st4 with
      fs := f
      deleted := d
      total := st4.total + sz
      movedGroups := st4.movedGroups ++ [(l, i, sz)]
      remaining := r } := by
  unfold acctOk at h ⊢
  simp only [List.map_append, List.sum_append, List.map_cons,
    List.sum_cons, List.map_nil, List.sum_nil]
  omega

theorem pg_acct (ctx : Ctx) (st : MvState) (l : Nat) (h : acctOk st) :
    acctOk (processGroup ctx st l) := by
  unfold processGroup
  cases hst : st.fs.stat l with
  | none => exact h
  | some stt =>
      dsimp only
      refine acct_append _ _ _ _ l stt.ino stt.size
        (fold_acct ctx (ctx.destFunc l) (ctx.group stt.ino) _ ?_)
      split <;> exact h

/-- The deletion bookkeeping invariant: every processed path has been
deleted, and for every recorded group both the leader and every member
of its inode group have been deleted. -/
def delOk (ctx : Ctx) (st : MvState) : Prop :=
  (∀ p ∈ st.processed, p ∈ st.deleted) ∧
  (∀ e ∈ st.movedGroups, e.1 ∈ st.deleted ∧
    ∀ m ∈ ctx.group e.2.1, m ∈ st.deleted)

theorem final_delOk (ctx : Ctx) (l i sz : Nat) (st4 : MvState) (f : FS)
    (r : Int)
    (hpd : ∀ p ∈ st4.processed, p ∈ st4.deleted ∨ p = l)
    (hmv : ∀ e ∈ st4.movedGroups, e.1 ∈ st4.deleted ∧
      ∀ m ∈ ctx.group e.2.1, m ∈ st4.deleted)
    (hcov : ∀ m ∈ ctx.group i, m ∈ st4.processed) :
    delOk ctx { st4 with
      fs := f
      deleted := st4.deleted ++ [l]
      total := st4.total + sz
      movedGroups := st4.movedGroups ++ [(l, i, sz)]
      remaining := r } := by
  constructor
  · intro p hp
    rcases hpd p hp with h | h
    · exact List.mem_append_left _ h
    · rw [h]; simp
  · intro e he
    rcases List.mem_append.mp he with he | he
    · rcases hmv e he with ⟨h1, h2⟩
      exact ⟨List.mem_append_left _ h1,
        fun m hm => List.mem_append_left _ (h2 m hm)⟩
    · have he' : e = (l, i, sz) := by simpa using he
      subst he'
      refine ⟨by simp, ?_⟩
      intro m hm
      rcases hpd m (hcov m hm) with h | h
      · exact List.mem_append_left _ h
      · rw [h]; simp

theorem pg_delOk (ctx : Ctx) (st : MvState) (l : Nat)
    (h : delOk ctx st) : delOk ctx (processGroup ctx st l) := by
  unfold processGroup
  cases hst : st.fs.stat l with
  | none => exact h
  | some stt =>
      dsimp only
      refine final_delOk ctx l stt.ino stt.size _ _ _
        (fold_procDelExcept ctx (ctx.destFunc l) (ctx.group stt.ino) l _ ?_)
        ?_ (fold_cover ctx (ctx.destFunc l) (ctx.group stt.ino) _)
      · intro p hp
        rcases List.mem_cons.mp hp with hpl | hp'
        · exact Or.inr hpl
        · left
          revert hp'
          split <;> (intro hp'; exact h.1 p hp')
      · intro e he
        have he2 := h.2 e
        revert he he2
        rw [fold_movedGroups]
        split <;>
          (intro he he2
           rcases he2 he with ⟨h1, h2⟩
           exact ⟨fold_deleted_mono ctx _ _ _ _ h1,
             fun m hm => fold_deleted_mono ctx _ _ _ _ (h2 m hm)⟩)

theorem isSame_true_some (fs : FS) (a b : Nat)
    (h : isSameFile fs a b = true) : ∃ dj, fs.lookup b = some dj := by
  unfold isSameFile at h
  cases hb : fs.lookup b with
  | none => rw [hb] at h; simp at h
  | some dj => exact ⟨dj, rfl⟩

theorem stat_some_lookup (fs : FS) (p : Nat) (i sz : Nat)
    (h : fs.stat p = some ⟨i, sz⟩) :
    fs.lookup p = some i ∧ fs.isize i = sz := by
  unfold FS.stat at h
  cases hp : fs.lookup p with
  | none => simp [hp] at h
  | some k =>
      rw [hp] at h
      have h' : some (FStat.mk k (fs.isize k)) = some ⟨i, sz⟩ := h
      injection h' with h'
      injection h' with h1 h2
      subst h1
      exact ⟨rfl, h2⟩

/-- The conclusion of the hardlink argument, transported through the
final `delete_file(src_file)` of the leader. -/
theorem final_hardlink (ctx : Ctx) (l i j : Nat) (st4 : MvState)
    (hA : ∀ s ∈ ctx.group i, s ≠ l →
      st4.fs.lookup (ctx.destFunc s) = some j ∧ st4.fs.lookup s = none)
    (hB : st4.fs.lookup (ctx.destFunc l) = some j)
    (hLg : l ∈ ctx.group i)
    (hsepG : ∀ (p : Nat), ∀ m ∈ ctx.group i, ctx.destFunc p ≠ m) :
    (∀ m ∈ ctx.group i,
      (st4.fs.remove l).lookup (ctx.destFunc m) = some j) ∧
    (∀ m ∈ ctx.group i, (st4.fs.remove l).lookup m = none) := by
  constructor
  · intro m hm
    rw [FS.lookup_remove_ne _ l _ (hsepG m l hLg)]
    by_cases hml : m = l
    · rw [hml]; exact hB
    · exact (hA m hm hml).1
  · intro m hm
    by_cases hml : m = l
    · rw [hml]; exact FS.lookup_remove_self _ l
    · rw [FS.lookup_remove_ne _ l m hml]; exact (hA m hm hml).2

/-- Hardlink preservation across one full sibling loop: from a state in
which the leader is processed and its destination file resolves to `j`,
with every sibling unprocessed and lacking a same-size destination
copy, the loop relinks every sibling destination path to `j`; after the
final leader delete every group member's destination path resolves to
`j`, every member's original is gone, and every member is processed. -/
theorem pg3_hardlink (ctx : Ctx) (l i j : Nat) (st3 : MvState)
    (hinj : ∀ p q, ctx.destFunc p = ctx.destFunc q → p = q)
    (hnd : (ctx.group i).Nodup)
    (hLg : l ∈ ctx.group i)
    (hl3 : l ∈ st3.processed)
    (hj3 : st3.fs.lookup (ctx.destFunc l) = some j)
    (hsepG : ∀ (p : Nat), ∀ m ∈ ctx.group i, ctx.destFunc p ≠ m)
    (hsibs3 : ∀ s ∈ ctx.group i, s ≠ l →
      s ∉ st3.processed ∧ isSameFile st3.fs s (ctx.destFunc s) = false) :
    (∀ m ∈ ctx.group i,
      (((ctx.group i).foldl (processSibling ctx (ctx.destFunc l))
        st3).fs.remove l).lookup (ctx.destFunc m) = some j) ∧
    (∀ m ∈ ctx.group i,
      (((ctx.group i).foldl (processSibling ctx (ctx.destFunc l))
        st3).fs.remove l).lookup m = none) ∧
    (∀ m ∈ ctx.group i,
      m ∈ ((ctx.group i).foldl (processSibling ctx (ctx.destFunc l))
        st3).processed) := by
  have hfold := sibFold_hardlink ctx l j hinj (ctx.group i) st3 hnd hl3 hj3
    (fun p m hm => hsepG p m hm) hsibs3
  have hfin := final_hardlink ctx l i j
    ((ctx.group i).foldl (processSibling ctx (ctx.destFunc l)) st3)
    hfold.1 hfold.2 hLg hsepG
  exact ⟨hfin.1, hfin.2, fold_cover ctx (ctx.destFunc l) (ctx.group i) st3⟩

theorem pg_lookup_frame (ctx : Ctx) (st : MvState) (l q : Nat)
    (hql : q ≠ l) (hqdl : q ≠ ctx.destFunc l)
    (hmem : ∀ s, s ∈ ctx.allMembers →
      s ∈ st.processed ∨ (q ≠ s ∧ q ≠ ctx.destFunc s)) :
    (processGroup ctx st l).fs.lookup q = st.fs.lookup q := by
  unfold processGroup
  cases hst : st.fs.stat l with
  | none => rfl
  | some stt =>
      dsimp only
      rw [FS.lookup_remove_ne _ l q hql,
        fold_lookup_frame ctx (ctx.destFunc l) (ctx.group stt.ino) _ q ?hc]
      · split
        · rfl
        · exact FS.lookup_copy_ne st.fs l (ctx.destFunc l) q hqdl
      case hc =>
        intro s hs
        rcases hmem s (group_sub_allMembers ctx stt.ino s hs) with h | h
        · left
          refine List.mem_cons_of_mem l ?_
          split <;> exact h
        · exact Or.inr h

/-- Hardlink preservation for one leader iteration of `move_files`: if
at entry the leader's destination either holds a same-size copy or is
absent, and every sibling is unprocessed with no same-size destination
copy (so each takes the link branch), then after `processGroup` every
group member's destination path resolves to one common inode, every
member's original is deleted, and every member is processed. -/
theorem pg_hardlink (ctx : Ctx) (st : MvState) (l : Nat) (i sz : Nat)
    (hstat : st.fs.stat l = some ⟨i, sz⟩)
    (hLg : l ∈ ctx.group i)
    (hnd : (ctx.group i).Nodup)
    (hsibs : ∀ s ∈ ctx.group i, s ≠ l →
      s ∉ st.processed ∧ isSameFile st.fs s (ctx.destFunc s) = false)
    (hldr : isSameFile st.fs l (ctx.destFunc l) = true ∨
      st.fs.lookup (ctx.destFunc l) = none)
    (hfresh : ∀ e ∈ st.fs.files, e.2 < st.fs.nextIno)
    (hinj : ∀ p q, ctx.destFunc p = ctx.destFunc q → p = q)
    (hsepG : ∀ (p : Nat), ∀ m ∈ ctx.group i, ctx.destFunc p ≠ m) :
    ∃ j, (∀ m ∈ ctx.group i,
        (processGroup ctx st l).fs.lookup (ctx.destFunc m) = some j) ∧
      (∀ m ∈ ctx.group i, (processGroup ctx st l).fs.lookup m = none) ∧
      (∀ m ∈ ctx.group i, m ∈ (processGroup ctx st l).processed) := by
  unfold processGroup
  rw [hstat]
  dsimp only
  by_cases hc : isSameFile st.fs l (ctx.destFunc l) = true
  · rw [if_pos hc]
    obtain ⟨j, hj⟩ := isSame_true_some st.fs l (ctx.destFunc l) hc
    have h3 := pg3_hardlink ctx l i j
      ⟨st.fs, l :: st.processed, st.total, st.remaining, st.movedGroups,
        st.orphanSizes, st.pausedFor ++ [l], st.deleted, st.selected ++ [l]⟩
      hinj hnd hLg (List.mem_cons_self l _) hj hsepG ?_
    · exact ⟨j, h3.1, h3.2.1, h3.2.2⟩
    · intro s hs hsl
      refine ⟨?_, (hsibs s hs hsl).2⟩
      intro hcon
      rcases List.mem_cons.mp hcon with h | h
      · exact hsl h
      · exact (hsibs s hs hsl).1 h
  · rw [if_neg hc]
    have hnone : st.fs.lookup (ctx.destFunc l) = none := by
      rcases hldr with h | h
      · exact absurd h hc
      · exact h
    have hlk := stat_some_lookup st.fs l i sz hstat
    have hcopy := FS.copy_absent st.fs l (ctx.destFunc l) i hlk.1 hnone
    have h3 := pg3_hardlink ctx l i st.fs.nextIno
      ⟨st.fs.copy l (ctx.destFunc l), l :: st.processed, st.total,
        st.remaining, st.movedGroups, st.orphanSizes, st.pausedFor ++ [l],
        st.deleted, st.selected ++ [l]⟩
      hinj hnd hLg (List.mem_cons_self l _) ?_ hsepG ?_
    · exact ⟨st.fs.nextIno, h3.1, h3.2.1, h3.2.2⟩
    · show (st.fs.copy l (ctx.destFunc l)).lookup (ctx.destFunc l) =
        some st.fs.nextIno
      rw [hcopy]
      exact lookup_cons_self _ _ _
    · intro s hs hsl
      constructor
      · intro hcon
        rcases List.mem_cons.mp hcon with h | h
        · exact hsl h
        · exact (hsibs s hs hsl).1 h
      · show isSameFile (st.fs.copy l (ctx.destFunc l)) s (ctx.destFunc s) =
          false
        have hsne : s ≠ ctx.destFunc l := fun h => hsepG l s hs h.symm
        have hdne : ctx.destFunc s ≠ ctx.destFunc l := by
          intro h
          exact hsl (hinj s l h)
        have hcg : isSameFile (st.fs.copy l (ctx.destFunc l)) s
            (ctx.destFunc s) = isSameFile st.fs s (ctx.destFunc s) := by
          refine isSameFile_congr st.fs _ s (ctx.destFunc s) ?_ ?_ ?_
          · rw [hcopy]
            show ((ctx.destFunc l, st.fs.nextIno) :: st.fs.files).lookup s =
              st.fs.lookup s
            exact lookup_cons_ne _ _ _ _ hsne
          · rw [hcopy]
            show ((ctx.destFunc l, st.fs.nextIno) :: st.fs.files).lookup
                (ctx.destFunc s) = st.fs.lookup (ctx.destFunc s)
            exact lookup_cons_ne _ _ _ _ hdne
          · intro k hk
            have hkmem : k < st.fs.nextIno := by
              rcases hk with hk | hk
              · exact hfresh (s, k) (lookup_mem_assoc _ _ _ hk)
              · exact hfresh (ctx.destFunc s, k) (lookup_mem_assoc _ _ _ hk)
            rw [hcopy]
            show (((st.fs.nextIno, st.fs.isize i) ::
              st.fs.sizes).lookup k).getD 0 = st.fs.isize k
            rw [lookup_cons_ne _ _ _ _ (Nat.ne_of_lt hkmem)]
            rfl
        rw [hcg]
        exact (hsibs s hs hsl).2

/-! ### `move_files` loop lemmas -/

theorem mf_stop (ctx : Ctx) (files : List Nat) :
    ∀ st : MvState, st.remaining ≤ 0 → moveFiles ctx st files = st := by
  induction files with
  | nil => intro st _; rfl
  | cons f rest ih =>
      intro st h
      simp only [moveFiles]
      split_ifs with h1 h2 h3 h4
      · exact ih st h
      · exact ih st h
      · rfl

theorem mf_append (ctx : Ctx) (a b : List Nat) :
    ∀ st : MvState,
      moveFiles ctx st (a ++ b) = moveFiles ctx (moveFiles ctx st a) b := by
  induction a with
  | nil => intro st; rfl
  | cons f a ih =>
      intro st
      rw [List.cons_append]
      simp only [moveFiles]
      split_ifs with h1 h2 h3 h4
      · exact ih st
      · exact ih st
      · exact (mf_stop ctx b st h3).symm
      · exact ih st
      · exact ih (processGroup ctx st f)

theorem mf_processed_mono (ctx : Ctx) (files : List Nat) :
    ∀ (st : MvState) (x : Nat), x ∈ st.processed →
      x ∈ (moveFiles ctx st files).processed := by
  induction files with
  | nil => intro st x h; exact h
  | cons f rest ih =>
      intro st x h
      simp only [moveFiles]
      split_ifs with h1 h2 h3 h4
      · exact ih st x h
      · exact ih st x h
      · exact h
      · exact ih st x h
      · exact ih _ x (pg_processed_mono ctx st f x h)

theorem mf_deleted_mono (ctx : Ctx) (files : List Nat) :
    ∀ (st : MvState) (x : Nat), x ∈ st.deleted →
      x ∈ (moveFiles ctx st files).deleted := by
  induction files with
  | nil => intro st x h; exact h
  | cons f rest ih =>
      intro st x h
      simp only [moveFiles]
      split_ifs with h1 h2 h3 h4
      · exact ih st x h
      · exact ih st x h
      · exact h
      · exact ih st x h
      · exact ih _ x (pg_deleted_mono ctx st f x h)

theorem mf_acct (ctx : Ctx) (files : List Nat) :
    ∀ st : MvState, acctOk st → acctOk (moveFiles ctx st files) := by
  induction files with
  | nil => intro st h; exact h
  | cons f rest ih =>
      intro st h
      simp only [moveFiles]
      split_ifs with h1 h2 h3 h4
      · exact ih st h
      · exact ih st h
      · exact h
      · exact ih st h
      · exact ih _ (pg_acct ctx st f h)

theorem mf_delOk (ctx : Ctx) (files : List Nat) :
    ∀ st : MvState, delOk ctx st → delOk ctx (moveFiles ctx st files) := by
  induction files with
  | nil => intro st h; exact h
  | cons f rest ih =>
      intro st h
      simp only [moveFiles]
      split_ifs with h1 h2 h3 h4
      · exact ih st h
      · exact ih st h
      · exact h
      · exact ih st h
      · exact ih _ (pg_delOk ctx st f h)

theorem mf_selected_ignored (ctx : Ctx) (files : List Nat) (p : Nat)
    (hpi : ctx.isIgnored p = true) :
    ∀ st : MvState, p ∉ st.selected →
      p ∉ (moveFiles ctx st files).selected := by
  induction files with
  | nil => intro st h; exact h
  | cons f rest ih =>
      intro st h
      simp only [moveFiles]
      split_ifs with h1 h2 h3 h4
      · exact ih st h
      · exact ih st h
      · exact h
      · exact ih st h
      · refine ih _ ?_
        cases hst : st.fs.stat f with
        | none => rw [pg_nostat ctx st f hst]; exact h
        | some stt =>
            rw [pg_selected ctx st f stt.ino stt.size (by rw [hst])]
            intro hcon
            rcases List.mem_append.mp hcon with hc | hc
            · exact h hc
            · have hpf : p = f := by simpa using hc
              rw [hpf] at hpi
              rw [hpi] at h2
              exact h2 rfl

theorem mf_lookup_frame (ctx : Ctx) (files : List Nat) :
    ∀ (st : MvState) (q : Nat),
      (∀ p, p ∉ st.processed → ctx.destFunc p ≠ q) →
      (∀ m, (m ∈ files ∨ m ∈ ctx.allMembers) → m ≠ q ∨ m ∈ st.processed) →
      (moveFiles ctx st files).fs.lookup q = st.fs.lookup q := by
  induction files with
  | nil => intro st q _ _; rfl
  | cons f rest ih =>
      intro st q hq1 hq2
      have hq2' : ∀ m, (m ∈ rest ∨ m ∈ ctx.allMembers) →
          m ≠ q ∨ m ∈ st.processed := by
        intro m hm
        refine hq2 m ?_
        rcases hm with hm | hm
        · exact Or.inl (List.mem_cons_of_mem f hm)
        · exact Or.inr hm
      simp only [moveFiles]
      split_ifs with h1 h2 h3 h4
      · exact ih st q hq1 hq2'
      · exact ih st q hq1 hq2'
      · rfl
      · exact ih st q hq1 hq2'
      · have hqf : q ≠ f := by
          rcases hq2 f (Or.inl (List.mem_cons_self f rest)) with h | h
          · exact Ne.symm h
          · exact absurd h h1
        have hqdf : q ≠ ctx.destFunc f := Ne.symm (hq1 f h1)
        have hmem : ∀ s, s ∈ ctx.allMembers →
            s ∈ st.processed ∨ (q ≠ s ∧ q ≠ ctx.destFunc s) := by
          intro s hs
          by_cases hsp : s ∈ st.processed
          · exact Or.inl hsp
          · refine Or.inr ⟨?_, Ne.symm (hq1 s hsp)⟩
            rcases hq2 s (Or.inr hs) with h | h
            · exact Ne.symm h
            · exact absurd h hsp
        rw [ih (processGroup ctx st f) q ?_ ?_,
          pg_lookup_frame ctx st f q hqf hqdf hmem]
        · intro p hp
          refine hq1 p ?_
          intro hcon
          exact hp (pg_processed_mono ctx st f p hcon)
        · intro m hm
          rcases hq2' m hm with h | h
          · exact Or.inl h
          · exact Or.inr (pg_processed_mono ctx st f m h)

/-! ### Budget invariant -/

/-- Every proper prefix of the recorded moved groups sums to strictly
less than the initial budget: the budget check passed (was strictly
positive) when each group was started. -/
def prefixOk (B : Int) (l : List (Nat × Nat × Nat)) : Prop :=
  ∀ n, n < l.length → (((l.take n).map fun e => e.2.2).sum : Int) < B

theorem mf_budget (ctx : Ctx) (B : Int) (files : List Nat) :
    ∀ st : MvState,
      st.remaining = B - ((st.movedGroups.map fun e => e.2.2).sum : Int) →
      prefixOk B st.movedGroups →
      (moveFiles ctx st files).remaining =
        B - (((moveFiles ctx st files).movedGroups.map
          fun e => e.2.2).sum : Int) ∧
      prefixOk B (moveFiles ctx st files).movedGroups := by
  induction files with
  | nil => intro st h1 h2; exact ⟨h1, h2⟩
  | cons f rest ih =>
      intro st h1 h2
      simp only [moveFiles]
      split_ifs with hc1 hc2 hc3 hc4
      · exact ih st h1 h2
      · exact ih st h1 h2
      · exact ⟨h1, h2⟩
      · exact ih st h1 h2
      · cases hst : st.fs.stat f with
        | none =>
            rw [pg_nostat ctx st f hst]
            exact ih st h1 h2
        | some stt =>
            have hmv := pg_movedGroups ctx st f stt.ino stt.size (by rw [hst])
            have hrm := pg_remaining ctx st f stt.ino stt.size (by rw [hst])
            have hpos : 0 < st.remaining := by omega
            have hsum : ((st.movedGroups.map fun e => e.2.2).sum : Int) < B := by
              omega
            refine ih (processGroup ctx st f) ?_ ?_
            · rw [hrm, hmv, h1]
              simp only [List.map_append, List.sum_append, List.map_cons,
                List.sum_cons, List.map_nil, List.sum_nil]
              push_cast
              ring
            · rw [hmv]
              intro n hn
              rw [List.length_append, List.length_cons, List.length_nil] at hn
              have hnle : n ≤ st.movedGroups.length := by omega
              rw [List.take_append_eq_append_take,
                Nat.sub_eq_zero_of_le hnle, List.take_zero, List.append_nil]
              rcases Nat.lt_or_ge n st.movedGroups.length with hlt | hge
              · exact h2 n hlt
              · have heq : n = st.movedGroups.length := by omega
                rw [heq, List.take_length]
                exact hsum

/-- C4: with initial budget `B`, the demotion loop checks the remaining
budget before each inode group and breaks once it is non-positive.
Consequently (1) when each recorded group was started the budget was
still strictly positive — every proper prefix of the recorded group
sizes sums below `B` — and (2) the total of all recorded group sizes is
at most `B` plus the size of the last moved group. -/
theorem demote_budget_respected (ctx : Ctx) (fs0 : FS) (B : Int)
    (files : List Nat) :
    (∀ n, n < (moveFiles ctx (initState fs0 B) files).movedGroups.length →
      ((((moveFiles ctx (initState fs0 B) files).movedGroups.take n).map
        fun e => e.2.2).sum : Int) < B) ∧
    (∀ l i s,
      (moveFiles ctx (initState fs0 B) files).movedGroups.getLast? =
        some (l, i, s) →
      (((moveFiles ctx (initState fs0 B) files).movedGroups.map
        fun e => e.2.2).sum : Int) ≤ B + s) := by
  have hinv := mf_budget ctx B files (initState fs0 B) (by simp [initState])
    (by intro n hn; simp [initState] at hn)
  refine ⟨hinv.2, ?_⟩
  intro l i s hlast
  have hne : (moveFiles ctx (initState fs0 B) files).movedGroups ≠ [] := by
    intro hcon
    rw [hcon] at hlast
    simp at hlast
  have hgl : (moveFiles ctx (initState fs0 B) files).movedGroups.getLast hne =
      (l, i, s) := by
    have hg := List.getLast?_eq_getLast _ hne
    rw [hlast] at hg
    injection hg with hg
    exact hg.symm
  have hdrop := List.dropLast_append_getLast hne
  rw [hgl] at hdrop
  have hlen : 0 < (moveFiles ctx (initState fs0 B) files).movedGroups.length :=
    List.length_pos.mpr hne
  have hlt := hinv.2
    ((moveFiles ctx (initState fs0 B) files).movedGroups.length - 1) (by omega)
  rw [← List.dropLast_eq_take] at hlt
  conv_lhs => rw [← hdrop]
  simp only [List.map_append, List.sum_append, List.map_cons, List.sum_cons,
    List.map_nil, List.sum_nil]
  omega

/-! ### Claim theorems for the executor -/

/-- C5: the reported freed-bytes total of a `move_files` run equals the
sum over processed inode groups of the group's size — counted exactly
once per group, regardless of how many hardlinked paths the group has —
plus, accumulated separately, the pre-existing sizes of the orphan
destination copies deleted before relinking; and for every recorded
group, the leader and every member of its inode group were deleted. -/
theorem freed_bytes_accounting (ctx : Ctx) (fs0 : FS) (B : Int)
    (files : List Nat) :
    (moveFiles ctx (initState fs0 B) files).total =
      ((moveFiles ctx (initState fs0 B) files).movedGroups.map
        fun e => e.2.2).sum +
      (moveFiles ctx (initState fs0 B) files).orphanSizes.sum ∧
    ∀ e ∈ (moveFiles ctx (initState fs0 B) files).movedGroups,
      e.1 ∈ (moveFiles ctx (initState fs0 B) files).deleted ∧
      ∀ m ∈ ctx.group e.2.1,
        m ∈ (moveFiles ctx (initState fs0 B) files).deleted := by
  constructor
  · exact mf_acct ctx files (initState fs0 B) (by simp [acctOk, initState])
  · exact (mf_delOk ctx files (initState fs0 B)
      ⟨by simp [initState], by simp [initState]⟩).2

/-- Demotion fixture: source-tier paths `1` and `2` are two hardlinks
of inode `7` (size 5 bytes); `dest_func` sends path `p` to the
destination-tier path `p + 100`; nothing is ignored or playing. -/
def ctxW : Ctx :=
  ⟨fun _ => false, fun _ => false, fun p => p + 100, [(7, [1, 2])]⟩

/-- File system for `ctxW`: both hardlink paths live, inode 7 has
size 5, next fresh inode is 8. -/
def fsW : FS := ⟨[(1, 7), (2, 7)], [(7, 5)], 8⟩

/-- C5 witness: the accounting identity evaluated on the two-hardlink
demotion run, plus the deletion facts for its single recorded group. -/
theorem freed_bytes_accounting_witness :
    ((moveFiles ctxW (initState fsW 10) [1]).total =
      ((moveFiles ctxW (initState fsW 10) [1]).movedGroups.map
        fun e => e.2.2).sum +
      (moveFiles ctxW (initState fsW 10) [1]).orphanSizes.sum) ∧
    ((1, 7, 5).1 ∈ (moveFiles ctxW (initState fsW 10) [1]).deleted ∧
      ∀ m ∈ ctxW.group (1, 7, 5).2.1,
        m ∈ (moveFiles ctxW (initState fsW 10) [1]).deleted) :=
  ⟨(freed_bytes_accounting ctxW fsW 10 [1]).1,
    (freed_bytes_accounting ctxW fsW 10 [1]).2 (1, 7, 5) (by decide)⟩

/-- C4 witness: the budget bounds evaluated on the demotion fixture
with budget 10 and one group of size 5. -/
theorem demote_budget_respected_witness :
    ((((moveFiles ctxW (initState fsW 10) [1]).movedGroups.take 0).map
      fun e => e.2.2).sum : Int) < 10 ∧
    (((moveFiles ctxW (initState fsW 10) [1]).movedGroups.map
      fun e => e.2.2).sum : Int) ≤ 10 + 5 :=
  ⟨(demote_budget_respected ctxW fsW 10 [1]).1 0 (by decide),
    (demote_budget_respected ctxW fsW 10 [1]).2 1 7 5 (by decide)⟩

/-- Demotion fixture with an ignore pattern: like `ctxW`, but path `2`
(a hardlink sibling of the non-ignored leader `1`) matches the ignore
set. -/
def ctxW8 : Ctx :=
  ⟨fun p => p == 2, fun _ => false, fun p => p + 100, [(7, [1, 2])]⟩

/-- C8, counterexample: the ignored path `2` shares inode 7 with the
non-ignored leader `1`.  The executor's sibling loop
(`cache_mover.py` lines 52-70) never consults `is_ignored`, so during
the run the ignored path is paused for, relinked and deleted — the
claim that an ignored path is never paused, linked or deleted is false
on the code. -/
theorem ignored_sibling_deleted :
    ctxW8.isIgnored 2 = true ∧
    2 ∈ (moveFiles ctxW8 (initState fsW 10) [1]).pausedFor ∧
    2 ∈ (moveFiles ctxW8 (initState fsW 10) [1]).deleted ∧
    (moveFiles ctxW8 (initState fsW 10) [1]).fs.lookup 2 = none ∧
    (moveFiles ctxW8 (initState fsW 10) [1]).fs.lookup 102 = some 8 := by
  decide

/-- C8, amended: a path matching an ignore glob is never selected as a
leader in either phase — it never reaches the pause/copy/delete leader
sequence and never counts against the budget (ignored leaders receive
the fixed minimal sort tuple and fail the executor's `is_ignored`
check).  However, an ignored path that shares an inode with a
non-ignored processed leader is handled by the sibling loop: it is
paused for, relinked and deleted (see the counterexample). -/
theorem ignored_never_leader (ctx : Ctx) (fs0 : FS) (B : Int)
    (files : List Nat) (p : Nat) (h : ctx.isIgnored p = true) :
    p ∉ (moveFiles ctx (initState fs0 B) files).selected :=
  mf_selected_ignored ctx files p h (initState fs0 B) (by simp [initState])

/-- C8 witness: on the ignore fixture, the ignored path `2` is never
selected as a leader even though it is deleted as a sibling. -/
theorem ignored_never_leader_witness :
    2 ∉ (moveFiles ctxW8 (initState fsW 10) [1]).selected :=
  ignored_never_leader ctxW8 fsW 10 [1] 2 (by decide)

/-! ### The promote phase (`move_to_source`, `cache_mover.py` lines 127-162)

`eligible_for_source` (`config.py` lines 96-120) builds the promote
candidate list by appending `(path, metadata)` tuples at line 115 — its
`result: List[str]` annotation notwithstanding — where `metadata` is a
`dict`.  `move_to_source` (annotated `files_to_move: List[str]`) passes
each element to `helpers.get_stat` in the `inodes_map` comprehension at
line 138.  `get_stat`'s first operation, `file not in _stat_cache`
(`helpers.py` line 141), hashes its argument; a Python tuple is
hashable only when all its elements are, and a `dict` is unhashable, so
the very first candidate raises `TypeError: unhashable type: dict`
before any filesystem access.  Nothing earlier in the phase mutates the
file system (`can_move_to_source` only reads disk usage, awaits the
candidate list, and triggers read-only seeder scans), so the exception
— caught at the mapping boundary in `main` — aborts the promote phase
before `move_files` is ever reached. -/

/-- A value used as a `_stat_cache` dict key by `get_stat`: either a
plain path string, or a `(path, metadata)` tuple as produced by
`eligible_for_source`. -/
inductive PyKey where
  | pathStr : String → PyKey
  | pathMeta : String → List (String × String) → PyKey

/-- Python hashability of the keys involved: a `str` is hashable; a
tuple is hashable iff all its elements are, and a `dict` is not, so a
`(path, metadata_dict)` tuple is unhashable. -/
def PyKey.hashable : PyKey → Bool
  | .pathStr _ => true
  | .pathMeta _ _ => false

/-- `helpers.get_stat` (`helpers.py` lines 140-143): the membership
test `file not in _stat_cache` hashes the key first, raising
`TypeError` for an unhashable key; only a hashable key reaches the
cache/`os.stat` lookup, modelled by the supplied `statOf`. -/
def getStat (statOf : PyKey → Except Unit FStat) (f : PyKey) :
    Except Unit FStat :=
  if f.hashable then statOf f else Except.error ()

/-- The `inodes_map` key comprehension of `move_to_source`
(`cache_mover.py` line 138):
`{helpers.get_stat(f).st_ino: set() for f in files_to_move}` evaluates
`get_stat` on each candidate in order; the first raised exception
aborts the comprehension. -/
def inodesMapKeys (statOf : PyKey → Except Unit FStat) :
    List PyKey → Except Unit (List Nat)
  | [] => Except.ok []
  | f :: rest =>
      match getStat statOf f with
      | Except.error u => Except.error u
      | Except.ok stt =>
          match inodesMapKeys statOf rest with
          | Except.error u => Except.error u
          | Except.ok inos => Except.ok (stt.ino :: inos)

/-- `move_to_source` (`cache_mover.py` lines 127-162) up to its first
possible mutation.  `canMove` is the result of `can_move_to_source`
and `filesToMove` the `(path, metadata)` candidate list (lines
128-134 return 0 untouched when either is empty).  Otherwise the
phase builds `inodes_map` at line 138; only after that would it walk
the destination and call `move_files`, a continuation abstracted as
`runMove`.  The result pairs the phase outcome (`none` means an
exception propagated to the mapping-level handler in `main`) with the
file system as the phase leaves it. -/
def moveToSource (statOf : PyKey → Except Unit FStat)
    (runMove : List Nat → FS → Nat × FS) (canMove : Int)
    (filesToMove : List (String × List (String × String)))
    (fs : FS) : Option Nat × FS :=
  if canMove ≤ 0 then (some 0, fs)
  else if filesToMove = [] then (some 0, fs)
  else
    match inodesMapKeys statOf
        (filesToMove.map fun e => PyKey.pathMeta e.1 e.2) with
    | Except.error _ => (none, fs)
    | Except.ok inos =>
        match runMove inos fs with
        | (total, fs2) => (some total, fs2)

/-- C2: the claim describes the intended promote behaviour, but the
code cannot execute it.  Whenever the promote phase has a positive
budget and at least one continue-watching candidate `e :: rest`, the
first `get_stat` call of the planning comprehension hashes the
`(path, metadata)` tuple and raises `TypeError`, for every possible
stat table and every possible `move_files` continuation: the phase
returns `none` (the exception reaches `main`'s mapping-level handler)
with the file system unchanged, so `move_files` is never reached, no
destination sibling is ever size-compared, skipped or warned about,
and nothing is promoted (destination data survives only because the
phase crashes).  With no budget or no candidates the phase returns 0,
also without touching the file system. -/
theorem promote_never_reaches_move_files
    (statOf : PyKey → Except Unit FStat)
    (runMove : List Nat → FS → Nat × FS) (canMove : Int)
    (e : String × List (String × String))
    (rest : List (String × List (String × String))) (fs : FS) :
    moveToSource statOf runMove canMove (e :: rest) fs =
      (if canMove ≤ 0 then (some 0, fs) else (none, fs)) ∧
    moveToSource statOf runMove canMove [] fs = (some 0, fs) := by
  constructor
  · by_cases hc : canMove ≤ 0
    · rw [if_pos hc]
      unfold moveToSource
      rw [if_pos hc]
    · rw [if_neg hc]
      unfold moveToSource
      rw [if_neg hc]
      rfl
  · unfold moveToSource
    split_ifs with h1 h2
    · rfl
    · rfl
    · exact absurd rfl h2

/-- C1: hardlink preservation.  Consider a run
`move_files(files1 ++ [L] ++ files2)` and an inode group with leader
`L` (inode `i`, size `sz`) that the executor fully processes: when its
turn comes the leader is unprocessed, not ignored, the budget is still
positive and the file is not actively played; the leader's destination
either already holds a same-size copy or is absent (it is copied); and
every sibling is unprocessed with no same-size destination copy, so
every sibling is hardlinked.  Then after the run every path of the
group resolves on the target tier to exactly one on-disk inode: the
leader's destination copy and every relinked sibling path are names of
one single inode `j`, and every source-side original of the group is
deleted.  The separation hypotheses record that `dest_func` is
injective and maps into the target tier, disjoint from every scanned
path — true of `get_dest_file`/`get_src_file` on distinct tier
roots. -/
theorem hardlink_group_single_inode (ctx : Ctx) (fs0 : FS) (B : Int)
    (files1 files2 : List Nat) (L : Nat) (i sz : Nat) (st1 : MvState)
    (hst1 : st1 = moveFiles ctx (initState fs0 B) files1)
    (hproc : L ∉ st1.processed)
    (hign : ctx.isIgnored L = false)
    (hrem : 0 < st1.remaining)
    (hact : ctx.isActive L = false)
    (hstat : st1.fs.stat L = some ⟨i, sz⟩)
    (hLg : L ∈ ctx.group i)
    (hnd : (ctx.group i).Nodup)
    (hsibs : ∀ s ∈ ctx.group i, s ≠ L →
      s ∉ st1.processed ∧ isSameFile st1.fs s (ctx.destFunc s) = false)
    (hldr : isSameFile st1.fs L (ctx.destFunc L) = true ∨
      st1.fs.lookup (ctx.destFunc L) = none)
    (hfresh : ∀ e ∈ st1.fs.files, e.2 < st1.fs.nextIno)
    (hinj : ∀ p q, ctx.destFunc p = ctx.destFunc q → p = q)
    (hsep : ∀ (p : Nat), ∀ m,
      (m ∈ files1 ++ L :: files2 ∨ m ∈ ctx.allMembers) →
      ctx.destFunc p ≠ m) :
    ∃ j, (∀ m ∈ ctx.group i,
        (moveFiles ctx (initState fs0 B)
          (files1 ++ L :: files2)).fs.lookup (ctx.destFunc m) = some j) ∧
      (∀ m ∈ ctx.group i,
        (moveFiles ctx (initState fs0 B)
          (files1 ++ L :: files2)).fs.lookup m = none) := by
  rw [mf_append ctx files1 (L :: files2) (initState fs0 B), ← hst1]
  have hstep : moveFiles ctx st1 (L :: files2) =
      moveFiles ctx (processGroup ctx st1 L) files2 := by
    simp only [moveFiles]
    rw [if_neg hproc, if_neg (by simp [hign] : ¬(ctx.isIgnored L = true)),
      if_neg (by omega : ¬(st1.remaining ≤ 0)),
      if_neg (by simp [hact] : ¬(ctx.isActive L = true))]
  rw [hstep]
  obtain ⟨j, hj1, hj2, hj3⟩ := pg_hardlink ctx st1 L i sz hstat hLg hnd
    hsibs hldr hfresh hinj
    (fun p m hm => hsep p m (Or.inr (group_sub_allMembers ctx i m hm)))
  refine ⟨j, ?_, ?_⟩
  · intro m hm
    rw [mf_lookup_frame ctx files2 (processGroup ctx st1 L)
      (ctx.destFunc m) ?_ ?_]
    · exact hj1 m hm
    · intro p hp hcon
      have hpm : p = m := hinj p m hcon
      rw [hpm] at hp
      exact hp (hj3 m hm)
    · intro x hx
      refine Or.inl (Ne.symm (hsep m x ?_))
      rcases hx with hx | hx
      · exact Or.inl (List.mem_append_right files1 (List.mem_cons_of_mem L hx))
      · exact Or.inr hx
  · intro m hm
    rw [mf_lookup_frame ctx files2 (processGroup ctx st1 L) m ?_ ?_]
    · exact hj2 m hm
    · intro p _
      exact hsep p m (Or.inr (group_sub_allMembers ctx i m hm))
    · intro x _
      by_cases hxm : x = m
      · right
        rw [hxm]
        exact hj3 m hm
      · exact Or.inl hxm

/-- C1 witness: on the two-hardlink demotion fixture (paths 1 and 2
sharing inode 7), the run leaves both destination paths 101 and 102 as
names of one single inode and deletes both source originals. -/
theorem hardlink_group_single_inode_witness :
    ∃ j, (∀ m ∈ ctxW.group 7,
        (moveFiles ctxW (initState fsW 10)
          ([] ++ 1 :: [])).fs.lookup (ctxW.destFunc m) = some j) ∧
      (∀ m ∈ ctxW.group 7,
        (moveFiles ctxW (initState fsW 10)
          ([] ++ 1 :: [])).fs.lookup m = none) :=
  hardlink_group_single_inode ctxW fsW 10 [] [] 1 7 5 (initState fsW 10)
    rfl (by decide) (by decide) (by decide) (by decide) (by decide)
    (by decide) (by decide) (by decide) (Or.inr (by decide)) (by decide)
    (by intro p q h; have h' : p + 100 = q + 100 := h; omega)
    (by intro p m hm
        have hm12 : m = 1 ∨ m = 2 := by
          rcases hm with h | h
          · simp at h
            exact Or.inl h
          · simp [Ctx.allMembers, ctxW, List.lookup] at h
            exact h
        show ctxW.destFunc p ≠ m
        show p + 100 ≠ m
        rcases hm12 with h | h <;> (rw [h]; omega))
